import Mathlib

/-
  Verification of the rust-http-server HTTP/1.1 request parser.

  Shallow embedding of:
  - src/src/http/lex.rs        (the streaming Lexer: namespace Lex)
  - src/src/http/parse.rs      (the earlier parser with its own inline lexer:
                                namespace OldParse)
  - src/src/http.rs            (the earlier request type: inside OldParse)
  - src/rust-http-parse/src/lib.rs (HttpMethod, HttpBody, HttpRequest,
                                HttpRequestBuilder: namespace HttpLib)
  - the rust-http-parse crate's parser is not among the provided sources; it is
    modelled from the spec (namespace NewParse), as marked on its definitions.

  Conventions of the embedding:
  - A Rust byte source (the tests' `&[u8]` slice reader) is a `List Nat` of the
    remaining bytes; `read` into a 1 KiB buffer yields `take 1024`.
  - A Rust `String` is a `List Char`; UTF-8 encoding/decoding is modelled
    explicitly so that byte indexing (`s[a..b]`, which panics off a char
    boundary) and char indexing (`s.chars().nth(i)`) can both be expressed.
  - Panics are a distinguished outcome `Out.panicked`; loops carry fuel and
    exhaustion is the distinguished outcome `Out.fuelOut`, so that genuine
    non-termination of the source shows up as `∀ fuel, … = fuelOut`.
-/

set_option maxRecDepth 20000

/-- Outcome of running embedded Rust code: a value, a panic (unwrap/expect
failure or slice-index panic), or fuel exhaustion of a loop. -/
inductive Out (α : Type) where
  | ok (a : α)
  | panicked
  | fuelOut
deriving DecidableEq

/-- Sequencing of embedded computations; panic and fuel exhaustion propagate. -/
def Out.bind {α β : Type} : Out α → (α → Out β) → Out β
  | .ok a, f => f a
  | .panicked, _ => .panicked
  | .fuelOut, _ => .fuelOut

/-- Rust char::len_utf8: number of bytes of the character's UTF-8 encoding. -/
def charUtf8Len (c : Char) : Nat :=
  if c.toNat < 0x80 then 1
  else if c.toNat < 0x800 then 2
  else if c.toNat < 0x10000 then 3
  else 4

/-- Byte length of a Rust String (String::len) whose decoded characters are `l`. -/
def byteLen (l : List Char) : Nat := (l.map charUtf8Len).sum

/-- UTF-8 encoding of one character (Rust char::encode_utf8). -/
def utf8EncodeChar (c : Char) : List Nat :=
  let n := c.toNat
  if n < 0x80 then [n]
  else if n < 0x800 then [0xC0 + n / 64, 0x80 + n % 64]
  else if n < 0x10000 then [0xE0 + n / 4096, 0x80 + n / 64 % 64, 0x80 + n % 64]
  else [0xF0 + n / 262144, 0x80 + n / 4096 % 64, 0x80 + n / 64 % 64, 0x80 + n % 64]

/-- UTF-8 encoding of a string (str::as_bytes of the string holding `l`). -/
def utf8Encode (l : List Char) : List Nat := (l.map utf8EncodeChar).flatten

/-- Whether a byte is a UTF-8 continuation byte (0x80-0xBF). -/
def isCont (b : Nat) : Bool := 0x80 ≤ b && b ≤ 0xBF

/-- Allowed second byte after a given 3-byte leader, per RFC 3629 / Rust's
validator: E0 requires A0-BF (no overlongs), ED requires 80-9F (no
surrogates), other leaders take any continuation byte. -/
def isCont3 (b b2 : Nat) : Bool :=
  if b == 0xE0 then 0xA0 ≤ b2 && b2 ≤ 0xBF
  else if b == 0xED then 0x80 ≤ b2 && b2 ≤ 0x9F
  else isCont b2

/-- Allowed second byte after a given 4-byte leader: F0 requires 90-BF (no
overlongs), F4 requires 80-8F (code points ≤ U+10FFFF). -/
def isCont4 (b b2 : Nat) : Bool :=
  if b == 0xF0 then 0x90 ≤ b2 && b2 ≤ 0xBF
  else if b == 0xF4 then 0x80 ≤ b2 && b2 ≤ 0x8F
  else isCont b2

/-- Strict UTF-8 decoding (Rust std::str::from_utf8 / Read::read_to_string):
none on any invalid byte sequence. -/
def utf8Decode : List Nat → Option (List Char)
  | [] => some []
  | b :: rest =>
    if b < 0x80 then (utf8Decode rest).map (fun cs => Char.ofNat b :: cs)
    else if 0xC2 ≤ b && b ≤ 0xDF then
      match rest with
      | b2 :: rest2 =>
        if isCont b2 then
          (utf8Decode rest2).map (fun cs => Char.ofNat ((b - 0xC0) * 64 + (b2 - 0x80)) :: cs)
        else none
      | [] => none
    else if 0xE0 ≤ b && b ≤ 0xEF then
      match rest with
      | b2 :: b3 :: rest3 =>
        if isCont3 b b2 && isCont b3 then
          (utf8Decode rest3).map
            (fun cs => Char.ofNat ((b - 0xE0) * 4096 + (b2 - 0x80) * 64 + (b3 - 0x80)) :: cs)
        else none
      | _ => none
    else if 0xF0 ≤ b && b ≤ 0xF4 then
      match rest with
      | b2 :: b3 :: b4 :: rest4 =>
        if isCont4 b b2 && isCont b3 && isCont b4 then
          (utf8Decode rest4).map
            (fun cs => Char.ofNat ((b - 0xF0) * 262144 + (b2 - 0x80) * 4096 +
              (b3 - 0x80) * 64 + (b4 - 0x80)) :: cs)
        else none
      | _ => none
    else none

/-- Lossy UTF-8 decoding (Rust String::from_utf8_lossy): each maximal invalid
subsequence is replaced by U+FFFD following the WHATWG substitution the Rust
standard library implements. -/
def utf8DecodeLossy : List Nat → List Char
  | [] => []
  | b :: rest =>
    if b < 0x80 then Char.ofNat b :: utf8DecodeLossy rest
    else if 0xC2 ≤ b && b ≤ 0xDF then
      match rest with
      | b2 :: rest2 =>
        if isCont b2 then Char.ofNat ((b - 0xC0) * 64 + (b2 - 0x80)) :: utf8DecodeLossy rest2
        else Char.ofNat 0xFFFD :: utf8DecodeLossy (b2 :: rest2)
      | [] => [Char.ofNat 0xFFFD]
    else if 0xE0 ≤ b && b ≤ 0xEF then
      match rest with
      | b2 :: rest2 =>
        if isCont3 b b2 then
          match rest2 with
          | b3 :: rest3 =>
            if isCont b3 then
              Char.ofNat ((b - 0xE0) * 4096 + (b2 - 0x80) * 64 + (b3 - 0x80)) ::
                utf8DecodeLossy rest3
            else Char.ofNat 0xFFFD :: utf8DecodeLossy (b3 :: rest3)
          | [] => [Char.ofNat 0xFFFD]
        else Char.ofNat 0xFFFD :: utf8DecodeLossy (b2 :: rest2)
      | [] => [Char.ofNat 0xFFFD]
    else if 0xF0 ≤ b && b ≤ 0xF4 then
      match rest with
      | b2 :: rest2 =>
        if isCont4 b b2 then
          match rest2 with
          | b3 :: rest3 =>
            if isCont b3 then
              match rest3 with
              | b4 :: rest4 =>
                if isCont b4 then
                  Char.ofNat ((b - 0xF0) * 262144 + (b2 - 0x80) * 4096 +
                    (b3 - 0x80) * 64 + (b4 - 0x80)) :: utf8DecodeLossy rest4
                else Char.ofNat 0xFFFD :: utf8DecodeLossy (b4 :: rest4)
              | [] => [Char.ofNat 0xFFFD]
            else Char.ofNat 0xFFFD :: utf8DecodeLossy (b3 :: rest3)
          | [] => [Char.ofNat 0xFFFD]
        else Char.ofNat 0xFFFD :: utf8DecodeLossy (b2 :: rest2)
      | [] => [Char.ofNat 0xFFFD]
    else Char.ofNat 0xFFFD :: utf8DecodeLossy rest

/-- Advance a byte index through a character list: `dropBytes l n` is the tail
of `l` after its first `n` bytes, or none when `n` is not on a character
boundary or exceeds the byte length (a Rust string-slice panic). -/
def dropBytes : List Char → Nat → Option (List Char)
  | l, 0 => some l
  | [], _ + 1 => none
  | c :: t, n + 1 =>
    if charUtf8Len c ≤ n + 1 then dropBytes t (n + 1 - charUtf8Len c) else none

/-- First `n` bytes of a character list as characters, or none when `n` is not
on a character boundary or exceeds the byte length. -/
def takeBytes : List Char → Nat → Option (List Char)
  | _, 0 => some []
  | [], _ + 1 => none
  | c :: t, n + 1 =>
    if charUtf8Len c ≤ n + 1 then (takeBytes t (n + 1 - charUtf8Len c)).map (fun r => c :: r)
    else none

/-- Rust byte-range slicing `&s[a..b]`; none models the panic on a reversed
range, an out-of-range index, or an index off a character boundary. -/
def byteSlice (l : List Char) (a b : Nat) : Option (List Char) :=
  if a ≤ b then (dropBytes l a).bind (fun t => takeBytes t (b - a)) else none

/-- Rust suffix slicing `&s[a..]`. -/
def sliceFrom (l : List Char) (a : Nat) : Option (List Char) := dropBytes l a

/-- Rust char::is_whitespace: the Unicode White_Space property (the complete
list of the 25 White_Space code points). -/
def rustIsWhitespace (c : Char) : Bool :=
  [0x09, 0x0A, 0x0B, 0x0C, 0x0D, 0x20, 0x85, 0xA0, 0x1680,
   0x2000, 0x2001, 0x2002, 0x2003, 0x2004, 0x2005, 0x2006, 0x2007,
   0x2008, 0x2009, 0x200A, 0x2028, 0x2029, 0x202F, 0x205F, 0x3000].contains c.toNat

/-- Rust char::is_alphabetic (Unicode Alphabetic). Exact for all code points
below U+0250 (ASCII, Latin-1 Supplement, Latin Extended-A and Extended-B);
every character fed to this classifier by the theorems of this development
lies in that range; higher code points are classified as non-alphabetic. -/
def rustIsAlphabetic (c : Char) : Bool :=
  let n := c.toNat
  (0x41 ≤ n && n ≤ 0x5A) || (0x61 ≤ n && n ≤ 0x7A) ||
  n == 0xAA || n == 0xB5 || n == 0xBA ||
  (0xC0 ≤ n && n ≤ 0xD6) || (0xD8 ≤ n && n ≤ 0xF6) || (0xF8 ≤ n && n ≤ 0x24F)

/-- Rust char::is_numeric (Unicode Nd, Nl, No). Exact for all code points below
U+0250: ASCII digits plus the Latin-1 superscripts and vulgar fractions. -/
def rustIsNumeric (c : Char) : Bool :=
  let n := c.toNat
  (0x30 ≤ n && n ≤ 0x39) || n == 0xB2 || n == 0xB3 || n == 0xB9 ||
  (0xBC ≤ n && n ≤ 0xBE)

/-- Rust char::is_alphanumeric: is_alphabetic or is_numeric. -/
def rustIsAlphanumeric (c : Char) : Bool := rustIsAlphabetic c || rustIsNumeric c

/-- Rust lowercasing of one character. Exact for all code points below U+0100
(ASCII A-Z and the Latin-1 uppercase letters map down by 0x20, everything else
in that range is its own lowercase); higher code points, which the theorems of
this development never lowercase, are left unchanged. -/
def rustToLowerChar (c : Char) : Char :=
  let n := c.toNat
  if 0x41 ≤ n && n ≤ 0x5A then Char.ofNat (n + 0x20)
  else if (0xC0 ≤ n && n ≤ 0xDE) && !(n == 0xD7) then Char.ofNat (n + 0x20)
  else c

/-- Rust str::to_lowercase, character by character. -/
def rustToLower (s : List Char) : List Char := s.map rustToLowerChar

/-- Rust str::trim_start: drop leading White_Space characters. -/
def trimStart (s : List Char) : List Char := s.dropWhile rustIsWhitespace

/-- ASCII decimal digit. -/
def isAsciiDigit (c : Char) : Bool := 0x30 ≤ c.toNat && c.toNat ≤ 0x39

/-- Rust str::parse::<usize> on 64-bit: an optional leading +, then one or
more ASCII digits; anything else, the empty string, or overflow is an error. -/
def parse_usize (s : List Char) : Option Nat :=
  let t := match s with
    | '+' :: r => r
    | _ => s
  if !t.isEmpty && t.all isAsciiDigit then
    let n := t.foldl (fun a c => a * 10 + (c.toNat - 0x30)) 0
    if n < 2 ^ 64 then some n else none
  else none

/-- Whether `kw` is a prefix of `l` (an anchored regex literal match). -/
def matchesAt : List Char → List Char → Bool
  | [], _ => true
  | _ :: _, [] => false
  | k :: ks, c :: cs => k == c && matchesAt ks cs

/-- Matched text and byte length of the first alternative of the method regex
`^GET|POST|PUT|PATCH|HEAD|OPTIONS|TRACE` that matches at this position.
Because of precedence, `^` anchors only the GET alternative, so GET is tried
only with `anchored` set (position 0 of the haystack); the remaining keywords
may match at any position. Alternatives are tried in the regex's order
(leftmost-first semantics of the Rust regex crate). -/
def methodTry (anchored : Bool) (l : List Char) : Option (List Char) :=
  if anchored && matchesAt ['G','E','T'] l then some ['G','E','T']
  else if matchesAt ['P','O','S','T'] l then some ['P','O','S','T']
  else if matchesAt ['P','U','T'] l then some ['P','U','T']
  else if matchesAt ['P','A','T','C','H'] l then some ['P','A','T','C','H']
  else if matchesAt ['H','E','A','D'] l then some ['H','E','A','D']
  else if matchesAt ['O','P','T','I','O','N','S'] l then some ['O','P','T','I','O','N','S']
  else if matchesAt ['T','R','A','C','E'] l then some ['T','R','A','C','E']
  else none

/-- Scan for the leftmost match of the method regex, accumulating the byte
offset. The keywords are ASCII, so a match can never begin inside a multi-byte
character and scanning character positions while reporting byte offsets is
equivalent to the byte-level scan the regex engine performs. -/
def methodFindAux : List Char → Nat → Bool → Option (Nat × Nat × List Char)
  | l, off, anchored =>
    match methodTry anchored l with
    | some kw => some (off, off + kw.length, kw)
    | none =>
      match l with
      | [] => none
      | c :: t => methodFindAux t (off + charUtf8Len c) false

/-- Regex find for `^GET|POST|PUT|PATCH|HEAD|OPTIONS|TRACE`: byte start, byte
end and matched text of the leftmost-first match. -/
def methodFind (l : List Char) : Option (Nat × Nat × List Char) := methodFindAux l 0 true

/-- Character class of the path regex `^[a-z0-9\-._~%!$&'()*+,;=:@/]+`
(all ASCII; 0x27 is the apostrophe). -/
def isPathChar (c : Char) : Bool :=
  let n := c.toNat
  (0x61 ≤ n && n ≤ 0x7A) || (0x30 ≤ n && n ≤ 0x39) ||
  [0x2D, 0x2E, 0x5F, 0x7E, 0x25, 0x21, 0x24, 0x26, 0x27, 0x28, 0x29,
   0x2A, 0x2B, 0x2C, 0x3B, 0x3D, 0x3A, 0x40, 0x2F].contains n

/-- Character class of TOKEN_REGEX_STR `^[!\#\$%\&'\*+-\.\^_`|~a-zA-Z0-9]+`
as the regex engine reads it: the explicit punctuation (`+-\.` is the range
from 0x2B to 0x2E, hence it also admits the comma) plus ASCII alphanumerics.
0x60 is the backquote. -/
def isTokenChar (c : Char) : Bool :=
  let n := c.toNat
  (0x41 ≤ n && n ≤ 0x5A) || (0x61 ≤ n && n ≤ 0x7A) || (0x30 ≤ n && n ≤ 0x39) ||
  [0x21, 0x23, 0x24, 0x25, 0x26, 0x27, 0x2A, 0x2B, 0x2C, 0x2D, 0x2E,
   0x5E, 0x5F, 0x60, 0x7C, 0x7E].contains n

namespace HttpLib

/-- HttpMethod from src/rust-http-parse/src/lib.rs (identical to the one in
src/src/http.rs). -/
inductive HttpMethod where
  | GET
  | HEAD
  | POST
  | PUT
  | PATCH
  | OPTIONS
  | TRACE
deriving DecidableEq

/-- HttpMethod::from_str: recognizes the canonical uppercase spellings. -/
def HttpMethod.from_str (s : List Char) : Option HttpMethod :=
  if s == ['G','E','T'] then some .GET
  else if s == ['H','E','A','D'] then some .HEAD
  else if s == ['P','O','S','T'] then some .POST
  else if s == ['P','U','T'] then some .PUT
  else if s == ['P','A','T','C','H'] then some .PATCH
  else if s == ['O','P','T','I','O','N','S'] then some .OPTIONS
  else if s == ['T','R','A','C','E'] then some .TRACE
  else none

/-- Insert into a name→value mapping (std HashMap::insert): the new pair
replaces any existing entry with the same key. -/
def hmInsert (m : List (List Char × List Char)) (k v : List Char) :
    List (List Char × List Char) :=
  (k, v) :: m.filter (fun p => !(p.1 == k))

/-- Lookup in a name→value mapping (std HashMap::get). -/
def hmGet (m : List (List Char × List Char)) (k : List Char) : Option (List Char) :=
  (m.find? (fun p => p.1 == k)).map (fun p => p.2)

/-- HttpBody from src/rust-http-parse/src/lib.rs. -/
structure HttpBody where
  content : List Nat
deriving DecidableEq

def HttpBody.new : HttpBody := ⟨[]⟩

def HttpBody.from_content (content : List Nat) : HttpBody := ⟨content⟩

/-- HttpBody::as_str (src/rust-http-parse/src/lib.rs lines 53-55):
`std::str::from_utf8(&self.content).unwrap()`; none models the unwrap panic
on invalid UTF-8. -/
def HttpBody.as_str (b : HttpBody) : Option (List Char) := utf8Decode b.content

/-- HttpRequest from src/rust-http-parse/src/lib.rs. -/
structure HttpRequest where
  method : HttpMethod
  path : List Char
  headers : List (List Char × List Char)
  body : HttpBody
deriving DecidableEq

def HttpRequest.new (method : HttpMethod) (path : List Char) : HttpRequest :=
  ⟨method, path, [], HttpBody.new⟩

def HttpRequest.set_header (r : HttpRequest) (name value : List Char) : HttpRequest :=
  { r with headers := hmInsert r.headers name value }

def HttpRequest.header (r : HttpRequest) (name : List Char) : Option (List Char) :=
  hmGet r.headers name

/-- HttpRequest::body_as_string: delegates to HttpBody::as_str, hence also
panics (none) on invalid UTF-8. -/
def HttpRequest.body_as_string (r : HttpRequest) : Option (List Char) :=
  r.body.as_str

/-- HttpRequestBuilder from src/rust-http-parse/src/lib.rs. -/
structure HttpRequestBuilder where
  method : HttpMethod
  path : List Char
  headers : List (List Char × List Char)
  body : HttpBody
deriving DecidableEq

def HttpRequestBuilder.new : HttpRequestBuilder := ⟨.GET, [], [], HttpBody.new⟩

def HttpRequestBuilder.with_method (b : HttpRequestBuilder) (m : HttpMethod) :
    HttpRequestBuilder := { b with method := m }

def HttpRequestBuilder.with_path (b : HttpRequestBuilder) (p : List Char) :
    HttpRequestBuilder := { b with path := p }

def HttpRequestBuilder.with_header (b : HttpRequestBuilder) (name value : List Char) :
    HttpRequestBuilder := { b with headers := hmInsert b.headers name value }

def HttpRequestBuilder.with_body (b : HttpRequestBuilder) (content : List Nat) :
    HttpRequestBuilder := { b with body := HttpBody.from_content content }

def HttpRequestBuilder.build (b : HttpRequestBuilder) : HttpRequest :=
  ⟨b.method, b.path, b.headers, b.body⟩

end HttpLib

namespace Lex

/-- Token from src/src/http/lex.rs. -/
inductive Token where
  | Method (m : HttpLib.HttpMethod)
  | Path (s : List Char)
  | Protocol
  | HeaderName (s : List Char)
  | HeaderValue (s : List Char)
  | Body (b : List Nat)
  | Crlf
  | Error
  | MaxHeaderSizeExceeded
deriving DecidableEq

/-- LexState from src/src/http/lex.rs. -/
inductive LexState where
  | Initial
  | RequestLine
  | HeaderName
  | HeaderValue
  | Body
  | End
deriving DecidableEq

/-- MAX_HEADER_SIZE from src/src/http/lex.rs: 8 KiB. -/
def MAX_HEADER_SIZE : Nat := 1024 * 8

/-- Lexer from src/src/http/lex.rs. The byte source (`stream`) is the list of
bytes not yet read; `buffer` holds the characters of the Rust String buffer. -/
structure Lexer where
  buffer : List Char
  state : LexState
  pos : Nat
  stream : List Nat
  is_eof : Bool
  expecting_content_length : Bool
  content_length : Option Nat
deriving DecidableEq

/-- Lexer::new. -/
def Lexer.new (input : List Nat) : Lexer :=
  ⟨[], .Initial, 0, input, false, false, none⟩

/-- Lexer::header_size_exceeded: `self.pos > MAX_HEADER_SIZE`. -/
def header_size_exceeded (st : Lexer) : Bool := decide (MAX_HEADER_SIZE < st.pos)

/-- Lexer::refill_buffer: one `read` into a 1 KiB scratch buffer (a slice
reader yields min(1024, remaining) bytes), lossy-decode the chunk read, set
is_eof to whether zero bytes were read, append to the buffer. -/
def refill_buffer (st : Lexer) : Lexer :=
  let chunk := st.stream.take 1024
  { st with
    buffer := st.buffer ++ utf8DecodeLossy chunk,
    stream := st.stream.drop 1024,
    is_eof := chunk.isEmpty }

/-- The read-to-end loop of fill_buffer_until_content_length_or_eof's `else`
branch: 1 KiB reads, lossy-decoded, until a read returns zero bytes. -/
def readChunksToEof (buffer : List Char) (stream : List Nat) : List Char :=
  if stream.isEmpty then buffer
  else readChunksToEof (buffer ++ utf8DecodeLossy (stream.take 1024)) (stream.drop 1024)
termination_by stream.length
decreasing_by
  cases stream with
  | nil => simp_all
  | cons a t => simp only [List.length_drop, List.length_cons]; omega

/-- Lexer::fill_buffer_until_content_length_or_eof (src/src/http/lex.rs lines
129-156). The guard returns immediately when is_eof is set or no
content_length was captured, which makes the `else` (read-to-end-of-input)
branch of the inner `if let` unreachable. The some branch takes
content_length further bytes via `take(n).read_to_string`, whose unwrap
panics (Out.panicked) when those bytes are not valid UTF-8. -/
def fill_buffer_until_content_length_or_eof (st : Lexer) : Out Lexer :=
  if st.is_eof || st.content_length.isNone then .ok st
  else
    match st.content_length with
    | some content_length =>
      match utf8Decode (st.stream.take content_length) with
      | some cs =>
        .ok { st with
          buffer := st.buffer ++ cs,
          stream := st.stream.drop content_length,
          is_eof := true }
      | none => .panicked
    | none =>
      .ok { st with buffer := readChunksToEof st.buffer st.stream, stream := [], is_eof := true }

/-- Lexer::lex_body (src/src/http/lex.rs lines 158-170): with a captured
content_length the body is `buffer[pos..pos + content_length]` (a slice that
panics when the buffer is shorter or the bounds are off a char boundary);
without one it is `buffer[pos..]`. The token carries the slice's bytes and
pos advances by their count. -/
def lex_body (st : Lexer) : Out (Token × Option LexState × Lexer) :=
  let sl := match st.content_length with
    | some content_length => byteSlice st.buffer st.pos (st.pos + content_length)
    | none => sliceFrom st.buffer st.pos
  match sl with
  | none => .panicked
  | some cs =>
    let body_vec := utf8Encode cs
    .ok (Token.Body body_vec, some LexState.End, { st with pos := st.pos + body_vec.length })

/-- Lexer::is_valid_header_name_char (src/src/http/lex.rs lines 210-212):
`c.is_alphanumeric() || c == '-'`. -/
def is_valid_header_name_char (c : Char) : Bool := rustIsAlphanumeric c || c == '-'

/-- Lexer::is_valid_header_value_char: any character except CR and LF. -/
def is_valid_header_value_char (c : Char) : Bool := !(c == '\r') && !(c == '\n')

/-- Lexer::lex_end_headers: an anchored CRLF match at pos consumes it and
moves to the Body state; otherwise Token::Error. -/
def lex_end_headers (st : Lexer) : Out (Token × Option LexState × Lexer) :=
  match sliceFrom st.buffer st.pos with
  | none => .panicked
  | some tail =>
    if matchesAt ['\r', '\n'] tail then
      .ok (Token.Crlf, some LexState.Body, { st with pos := st.pos + 2 })
    else .ok (Token.Error, none, st)

/-- Lexer::lex_end_header_value (src/src/http/lex.rs lines 244-263): expects
CRLF at pos; on it, consumes the CRLF, and if a content-length header name
was just seen, parses the trimmed value as usize into content_length (parse
failure records nothing). Emits the trimmed value and returns to the
HeaderName state. -/
def lex_end_header_value (value : List Char) (st : Lexer) :
    Out (Token × Option LexState × Lexer) :=
  match sliceFrom st.buffer st.pos with
  | none => .panicked
  | some tail =>
    if matchesAt ['\r', '\n'] tail then
      let st1 := { st with pos := st.pos + 2 }
      let st2 :=
        if st1.expecting_content_length then
          let st3 := { st1 with expecting_content_length := false }
          match parse_usize (trimStart value) with
          | some content_length => { st3 with content_length := some content_length }
          | none => st3
        else st1
      .ok (Token.HeaderValue (trimStart value), some LexState.HeaderName, st2)
    else .ok (Token.Error, none, st)

/-- The scanning loop of Lexer::lex_header_name (src/src/http/lex.rs lines
178-207): at a colon, the name is the byte slice from start_pos to pos (a
panic when those indices are off char boundaries) and the content-length
flag is armed iff its lowercasing is `content-length`; while the buffer is
exhausted the loop refills and retries (with no end-of-input check, so at
end of input it spins forever: fuelOut for every fuel). -/
def lex_header_name_loop : Nat → Lexer → Nat → Out (Token × Option LexState × Lexer)
  | 0, _, _ => .fuelOut
  | fuel + 1, st, start_pos =>
    match st.buffer.get? st.pos with
    | some c =>
      if c == ':' then
        match byteSlice st.buffer start_pos st.pos with
        | none => .panicked
        | some name =>
          let st1 := { st with
            pos := st.pos + 1,
            expecting_content_length :=
              rustToLower name == ['c','o','n','t','e','n','t','-','l','e','n','g','t','h'] }
          .ok (Token.HeaderName name, some LexState.HeaderValue, st1)
      else if header_size_exceeded st then
        .ok (Token.MaxHeaderSizeExceeded, none, st)
      else if is_valid_header_name_char c then
        lex_header_name_loop fuel { st with pos := st.pos + 1 } start_pos
      else
        .ok (Token.Error, none, st)
    | none => lex_header_name_loop fuel (refill_buffer st) start_pos

/-- Lexer::lex_header_name (src/src/http/lex.rs lines 172-208): a CR at pos
means the blank line ending the header section; otherwise scan a name. -/
def lex_header_name (fuel : Nat) (st : Lexer) : Out (Token × Option LexState × Lexer) :=
  if st.buffer.get? st.pos == some '\r' then lex_end_headers st
  else lex_header_name_loop fuel st st.pos

/-- The scanning loop of Lexer::lex_header_value (src/src/http/lex.rs lines
217-241): scan until CR (the value is the byte slice scanned), with the same
refill-without-eof-check behaviour as the header-name loop. -/
def lex_header_value_loop : Nat → Lexer → Nat → Out (Token × Option LexState × Lexer)
  | 0, _, _ => .fuelOut
  | fuel + 1, st, start_pos =>
    match st.buffer.get? st.pos with
    | some c =>
      if c == '\r' then
        match byteSlice st.buffer start_pos st.pos with
        | none => .panicked
        | some value => lex_end_header_value value st
      else if header_size_exceeded st then
        .ok (Token.MaxHeaderSizeExceeded, none, st)
      else if is_valid_header_value_char c then
        lex_header_value_loop fuel { st with pos := st.pos + 1 } start_pos
      else
        .ok (Token.Error, none, st)
    | none => lex_header_value_loop fuel (refill_buffer st) start_pos

/-- Lexer::lex_header_value (src/src/http/lex.rs lines 214-242). -/
def lex_header_value (fuel : Nat) (st : Lexer) : Out (Token × Option LexState × Lexer) :=
  lex_header_value_loop fuel st st.pos

/-- Lexer::lex_path: anchored longest match of the path character class; the
token is the matched text and pos advances by its byte length. -/
def lex_path (st : Lexer) : Out (Token × Option LexState × Lexer) :=
  match sliceFrom st.buffer st.pos with
  | none => .panicked
  | some tail =>
    let m := tail.takeWhile isPathChar
    if m.isEmpty then .ok (Token.Error, none, st)
    else .ok (Token.Path m, none, { st with pos := st.pos + byteLen m })

/-- Lexer::lex_method_or_protocol (src/src/http/lex.rs lines 339-370): find
the method regex in `buffer[pos..]` (leftmost-first, `^` anchoring only GET),
build the method from the matched text via HttpMethod::from_str().unwrap()
(the matched text is always a keyword, so the unwrap cannot fire), else try
the anchored protocol literal `HTTP/1.1`, else Token::Error. -/
def lex_method_or_protocol (st : Lexer) : Out (Token × Option LexState × Lexer) :=
  match sliceFrom st.buffer st.pos with
  | none => .panicked
  | some tail =>
    match methodFind tail with
    | some (_, e, kw) =>
      match HttpLib.HttpMethod.from_str kw with
      | some m => .ok (Token.Method m, none, { st with pos := st.pos + e })
      | none => .panicked
    | none =>
      if matchesAt ['H','T','T','P','/','1','.','1'] tail then
        .ok (Token.Protocol, none, { st with pos := st.pos + 8 })
      else .ok (Token.Error, none, st)

/-- Lexer::lex_end_request_line: anchored CRLF at pos moves to header lexing. -/
def lex_end_request_line (st : Lexer) : Out (Token × Option LexState × Lexer) :=
  match sliceFrom st.buffer st.pos with
  | none => .panicked
  | some tail =>
    if matchesAt ['\r', '\n'] tail then
      .ok (Token.Crlf, some LexState.HeaderName, { st with pos := st.pos + 2 })
    else .ok (Token.Error, none, st)

/-- Lexer::lex_request_line (src/src/http/lex.rs lines 282-307): CR ends the
request line, whitespace is skipped (recursively), an alphabetic character
starts a method-or-protocol match, `/` starts a path; anything else (or an
exhausted buffer, which this function does not refill) is Token::Error. -/
def lex_request_line : Nat → Lexer → Out (Token × Option LexState × Lexer)
  | 0, _ => .fuelOut
  | fuel + 1, st =>
    match st.buffer.get? st.pos with
    | some c =>
      if c == '\r' then lex_end_request_line st
      else if rustIsWhitespace c then lex_request_line fuel { st with pos := st.pos + 1 }
      else if rustIsAlphabetic c then lex_method_or_protocol st
      else if c == '/' then lex_path st
      else .ok (Token.Error, none, st)
    | none => .ok (Token.Error, none, st)

/-- Iterator::next for Lexer (src/src/http/lex.rs lines 50-91): end of
iteration once is_eof is set and pos has reached the buffer's byte length;
in the three header states a pos beyond MAX_HEADER_SIZE yields
MaxHeaderSizeExceeded immediately (leaving the lexer untouched); otherwise
dispatch on the state, apply the returned state transition, and yield the
token. -/
def Lexer.next (fuel : Nat) (st : Lexer) : Out (Option Token × Lexer) :=
  if st.is_eof && decide (byteLen st.buffer ≤ st.pos) then .ok (none, st)
  else
    match st.state with
    | LexState.End => .ok (none, st)
    | s =>
      let step : Out (Token × Option LexState × Lexer) :=
        match s with
        | LexState.Initial =>
          let st1 := refill_buffer st
          lex_request_line fuel { st1 with state := LexState.RequestLine }
        | LexState.RequestLine =>
          if header_size_exceeded st then .ok (Token.MaxHeaderSizeExceeded, none, st)
          else lex_request_line fuel st
        | LexState.HeaderName =>
          if header_size_exceeded st then .ok (Token.MaxHeaderSizeExceeded, none, st)
          else lex_header_name fuel st
        | LexState.HeaderValue =>
          if header_size_exceeded st then .ok (Token.MaxHeaderSizeExceeded, none, st)
          else lex_header_value fuel st
        | LexState.Body =>
          (fill_buffer_until_content_length_or_eof st).bind lex_body
        | LexState.End => .ok (Token.Error, none, st)
      step.bind fun r =>
        let st2 := match r.2.1 with
          | some s2 => { r.2.2 with state := s2 }
          | none => r.2.2
        .ok (some r.1, st2)

/-- Drive the lexer for at most `n` tokens (stopping at the iterator's None),
returning the tokens and the final lexer state. -/
def runN : Nat → Nat → Lexer → Out (List Token × Lexer)
  | 0, _, st => .ok ([], st)
  | n + 1, fuel, st =>
    (Lexer.next fuel st).bind fun r =>
      match r with
      | (none, st1) => .ok ([], st1)
      | (some t, st1) => (runN n fuel st1).bind fun r2 => .ok (t :: r2.1, r2.2)

/-- The first at-most-`n` tokens the lexer emits on `input`. -/
def tokensN (n fuel : Nat) (input : List Nat) : Out (List Token) :=
  (runN n fuel (Lexer.new input)).bind fun r => .ok r.1

end Lex

namespace OldParse

/-- Token from src/src/http/parse.rs (the parser's inline lexer): Method
carries the matched text, not an enum value. -/
inductive Token where
  | Method (s : List Char)
  | Path (s : List Char)
  | Protocol
  | HeaderName (s : List Char)
  | HeaderValue (s : List Char)
  | Body (b : List Nat)
  | Crlf
  | Error
deriving DecidableEq

/-- LexState from src/src/http/parse.rs. -/
inductive LexState where
  | RequestLine
  | HeaderName
  | HeaderValue
  | Body
deriving DecidableEq

/-- Lexer from src/src/http/parse.rs: the whole source is read up front. -/
structure Lexer where
  buffer : List Char
  state : LexState
  pos : Nat
deriving DecidableEq

/-- Lexer::new (src/src/http/parse.rs lines 59-69): read_to_string of the
whole source; the expect panics (none) when the input is not valid UTF-8. -/
def Lexer.new (input : List Nat) : Option Lexer :=
  (utf8Decode input).map fun buffer => ⟨buffer, .RequestLine, 0⟩

/-- Lexer::lex_end_headers. -/
def lex_end_headers (st : Lexer) : Out (Token × Option LexState × Lexer) :=
  match sliceFrom st.buffer st.pos with
  | none => .panicked
  | some tail =>
    if matchesAt ['\r', '\n'] tail then
      .ok (Token.Crlf, some LexState.Body, { st with pos := st.pos + 2 })
    else .ok (Token.Error, none, st)

/-- Lexer::lex_header_name (src/src/http/parse.rs lines 71-99): CR starts the
header-section terminator; otherwise the anchored regex `^[token]+:` must
match at pos (greedy class run followed by the colon); the token is the run
without the colon. -/
def lex_header_name (st : Lexer) : Out (Token × Option LexState × Lexer) :=
  match st.buffer.get? st.pos with
  | some c =>
    if c == '\r' then lex_end_headers st
    else
      match sliceFrom st.buffer st.pos with
      | none => .panicked
      | some tail =>
        let m := tail.takeWhile isTokenChar
        if !m.isEmpty && tail.get? m.length == some ':' then
          .ok (Token.HeaderName m, some LexState.HeaderValue,
            { st with pos := st.pos + byteLen m + 1 })
        else .ok (Token.Error, none, st)
  | none => .ok (Token.Error, none, st)

/-- Lexer::lex_header_value (src/src/http/parse.rs lines 101-128): skip
leading non-CR whitespace one character at a time (recursively), then the
anchored regex `^[^\r]+\r\n` must match: a nonempty CR-free run up to the
first CR, which must be followed by LF; the token drops the final CRLF. -/
def lex_header_value : Nat → Lexer → Out (Token × Option LexState × Lexer)
  | 0, _ => .fuelOut
  | fuel + 1, st =>
    match st.buffer.get? st.pos with
    | some c =>
      if !(c == '\r') && rustIsWhitespace c then
        lex_header_value fuel { st with pos := st.pos + 1 }
      else
        match sliceFrom st.buffer st.pos with
        | none => .panicked
        | some tail =>
          let m := tail.takeWhile (fun c2 => !(c2 == '\r'))
          if !m.isEmpty && matchesAt ['\r', '\n'] (tail.drop m.length) then
            .ok (Token.HeaderValue m, some LexState.HeaderName,
              { st with pos := st.pos + byteLen m + 2 })
          else .ok (Token.Error, none, st)
    | none => .ok (Token.Error, none, st)

/-- Lexer::lex_end_request_line. -/
def lex_end_request_line (st : Lexer) : Out (Token × Option LexState × Lexer) :=
  match sliceFrom st.buffer st.pos with
  | none => .panicked
  | some tail =>
    if matchesAt ['\r', '\n'] tail then
      .ok (Token.Crlf, some LexState.HeaderName, { st with pos := st.pos + 2 })
    else .ok (Token.Error, none, st)

/-- Lexer::lex_path: identical to the streaming lexer's. -/
def lex_path (st : Lexer) : Out (Token × Option LexState × Lexer) :=
  match sliceFrom st.buffer st.pos with
  | none => .panicked
  | some tail =>
    let m := tail.takeWhile isPathChar
    if m.isEmpty then .ok (Token.Error, none, st)
    else .ok (Token.Path m, none, { st with pos := st.pos + byteLen m })

/-- Lexer::lex_method_or_protocol (src/src/http/parse.rs lines 196-221): as in
the streaming lexer but the Method token carries the matched text itself. -/
def lex_method_or_protocol (st : Lexer) : Out (Token × Option LexState × Lexer) :=
  match sliceFrom st.buffer st.pos with
  | none => .panicked
  | some tail =>
    match methodFind tail with
    | some (_, e, kw) => .ok (Token.Method kw, none, { st with pos := st.pos + e })
    | none =>
      if matchesAt ['H','T','T','P','/','1','.','1'] tail then
        .ok (Token.Protocol, none, { st with pos := st.pos + 8 })
      else .ok (Token.Error, none, st)

/-- Lexer::lex_request_line (src/src/http/parse.rs lines 142-166). -/
def lex_request_line : Nat → Lexer → Out (Token × Option LexState × Lexer)
  | 0, _ => .fuelOut
  | fuel + 1, st =>
    match st.buffer.get? st.pos with
    | some c =>
      if c == '\r' then lex_end_request_line st
      else if rustIsWhitespace c then lex_request_line fuel { st with pos := st.pos + 1 }
      else if rustIsAlphabetic c then lex_method_or_protocol st
      else if c == '/' then lex_path st
      else .ok (Token.Error, none, st)
    | none => .ok (Token.Error, none, st)

/-- Iterator::next for the inline Lexer (src/src/http/parse.rs lines 39-56):
None once pos reaches the buffer's byte length; in the Body state the match
yields Token::Error. -/
def Lexer.next (fuel : Nat) (st : Lexer) : Out (Option Token × Lexer) :=
  if decide (byteLen st.buffer ≤ st.pos) then .ok (none, st)
  else
    let step : Out (Token × Option LexState × Lexer) :=
      match st.state with
      | LexState.RequestLine => lex_request_line fuel st
      | LexState.HeaderName => lex_header_name st
      | LexState.HeaderValue => lex_header_value fuel st
      | LexState.Body => .ok (Token.Error, none, st)
    step.bind fun r =>
      let st2 := match r.2.1 with
        | some s2 => { r.2.2 with state := s2 }
        | none => r.2.2
      .ok (some r.1, st2)

/-- ParseError from src/src/http/parse.rs lines 223-226: only Unexpected and
EarlyEof. -/
inductive ParseError where
  | Unexpected (msg : List Char)
  | EarlyEof
deriving DecidableEq

/-- HttpRequest from src/src/http.rs: the method is kept as a string and there
is no body field. -/
structure HttpRequest where
  method : List Char
  path : List Char
  headers : List (List Char × List Char)
deriving DecidableEq

/-- HttpRequest::new (src/src/http.rs lines 23-29). -/
def HttpRequest.new (method path : List Char) : HttpRequest := ⟨method, path, []⟩

/-- HttpRequest::set_header (src/src/http.rs lines 31-33): HashMap::insert. -/
def HttpRequest.set_header (r : HttpRequest) (name value : List Char) : HttpRequest :=
  { r with headers := HttpLib.hmInsert r.headers name value }

/-- HttpRequest::header (src/src/http.rs lines 35-37): HashMap::get. -/
def HttpRequest.header (r : HttpRequest) (name : List Char) : Option (List Char) :=
  HttpLib.hmGet r.headers name

/-- parse_protocol (src/src/http/parse.rs lines 287-298). -/
def parse_protocol (fuel : Nat) (lx : Lexer) : Out (Except ParseError Lexer) :=
  (Lexer.next fuel lx).bind fun r =>
    match r with
    | (some Token.Protocol, lx1) => .ok (.ok lx1)
    | (some _, _) =>
      .ok (.error (.Unexpected ("Expected protocol version").toList))
    | (none, _) => .ok (.error .EarlyEof)

/-- parse_crlf (src/src/http/parse.rs lines 300-311). -/
def parse_crlf (fuel : Nat) (lx : Lexer) : Out (Except ParseError Lexer) :=
  (Lexer.next fuel lx).bind fun r =>
    match r with
    | (some Token.Crlf, lx1) => .ok (.ok lx1)
    | (some _, _) => .ok (.error (.Unexpected ("Expected CRLF").toList))
    | (none, _) => .ok (.error .EarlyEof)

/-- parse_request_line (src/src/http/parse.rs lines 236-258): Method, then
Path (whose `if let` treats a missing token like a wrong one), then protocol
and CRLF; the request is built from the method text and path. -/
def parse_request_line (fuel : Nat) (lx : Lexer) :
    Out (Except ParseError (HttpRequest × Lexer)) :=
  (Lexer.next fuel lx).bind fun r =>
    match r with
    | (some (Token.Method method), lx1) =>
      (Lexer.next fuel lx1).bind fun r2 =>
        match r2 with
        | (some (Token.Path path), lx2) =>
          (parse_protocol fuel lx2).bind fun p =>
            match p with
            | .error e => .ok (.error e)
            | .ok lx3 =>
              (parse_crlf fuel lx3).bind fun q =>
                match q with
                | .error e => .ok (.error e)
                | .ok lx4 => .ok (.ok (HttpRequest.new method path, lx4))
        | (_, _) => .ok (.error (.Unexpected ("Expected path").toList))
    | (some _, _) => .ok (.error (.Unexpected ("Expected HTTP Method").toList))
    | (none, _) => .ok (.error .EarlyEof)

/-- parse_header_lines (src/src/http/parse.rs lines 260-285): loop consuming
Crlf (done) or HeaderName followed by HeaderValue (restated via set_header);
anything else — including end of tokens — is Unexpected. The request
accumulated so far is returned alongside the verdict, mirroring the `&mut
HttpRequest` argument that keeps its headers when an error occurs. -/
def parse_header_lines : Nat → Nat → Lexer → HttpRequest →
    Out (Except ParseError Unit × HttpRequest × Lexer)
  | 0, _, _, _ => .fuelOut
  | n + 1, fuel, lx, request =>
    (Lexer.next fuel lx).bind fun r =>
      match r with
      | (some Token.Crlf, lx1) => .ok (.ok (), request, lx1)
      | (some (Token.HeaderName header_name), lx1) =>
        (Lexer.next fuel lx1).bind fun r2 =>
          match r2 with
          | (some (Token.HeaderValue header_val), lx2) =>
            parse_header_lines n fuel lx2 (request.set_header header_name header_val)
          | (_, lx2) =>
            .ok (.error (.Unexpected ("Expected header value").toList), request, lx2)
      | (_, lx1) =>
        .ok (.error (.Unexpected ("Expected header").toList), request, lx1)

/-- parse_from_reader (src/src/http/parse.rs lines 228-234). NOTE, faithful to
the source: the Result of parse_header_lines is discarded (the call carries
no `?` operator), so header-section errors do not abort the parse and the
request — with whatever headers were recorded before the error — is returned
as Ok. -/
def parse_from_reader (fuel : Nat) (input : List Nat) : Out (Except ParseError HttpRequest) :=
  match Lexer.new input with
  | none => .panicked
  | some lx =>
    (parse_request_line fuel lx).bind fun r =>
      match r with
      | .error e => .ok (.error e)
      | .ok (request, lx1) =>
        (parse_header_lines fuel fuel lx1 request).bind fun r2 =>
          .ok (.ok r2.2.1)

/-- parse_from_reader with ample fuel for the inputs of this development. -/
def parseRun (input : List Nat) : Out (Except ParseError HttpRequest) :=
  parse_from_reader 4096 input

end OldParse

namespace NewParse

/-- ParseError at the public boundary, per spec §6: Unexpected, EarlyEof,
MaxHeaderSizeExceeded (matching main.rs, which matches on
ParseError::MaxHeaderSizeExceeded of the rust-http-parse crate). -/
inductive ParseError where
  | Unexpected (msg : List Char)
  | EarlyEof
  | MaxHeaderSizeExceeded
deriving DecidableEq

/-- Modelled from the spec: step propagation of the rust-http-parse parser
(its parse.rs is not among the provided sources). Spec §4.2: receiving
MaxHeaderSizeExceeded yields ParseError::MaxHeaderSizeExceeded, receiving
Error yields Unexpected, receiving nothing where a token was required yields
EarlyEof; other deviations are Unexpected with a message (messages follow the
earlier copy in src/src/http/parse.rs). -/
def parse_protocol (fuel : Nat) (lx : Lex.Lexer) : Out (Except ParseError Lex.Lexer) :=
  (Lex.Lexer.next fuel lx).bind fun r =>
    match r with
    | (some Lex.Token.Protocol, lx1) => .ok (.ok lx1)
    | (some Lex.Token.MaxHeaderSizeExceeded, _) => .ok (.error .MaxHeaderSizeExceeded)
    | (some _, _) => .ok (.error (.Unexpected ("Expected protocol version").toList))
    | (none, _) => .ok (.error .EarlyEof)

/-- Modelled from the spec: the CRLF step ending the request line. -/
def parse_crlf (fuel : Nat) (lx : Lex.Lexer) : Out (Except ParseError Lex.Lexer) :=
  (Lex.Lexer.next fuel lx).bind fun r =>
    match r with
    | (some Lex.Token.Crlf, lx1) => .ok (.ok lx1)
    | (some Lex.Token.MaxHeaderSizeExceeded, _) => .ok (.error .MaxHeaderSizeExceeded)
    | (some _, _) => .ok (.error (.Unexpected ("Expected CRLF").toList))
    | (none, _) => .ok (.error .EarlyEof)

/-- Modelled from the spec (§4.2 step 1): expect Method, Path, Protocol, Crlf,
recording method and path in the builder. -/
def parse_request_line (fuel : Nat) (lx : Lex.Lexer) :
    Out (Except ParseError (HttpLib.HttpRequestBuilder × Lex.Lexer)) :=
  (Lex.Lexer.next fuel lx).bind fun r =>
    match r with
    | (some (Lex.Token.Method m), lx1) =>
      (Lex.Lexer.next fuel lx1).bind fun r2 =>
        match r2 with
        | (some (Lex.Token.Path p), lx2) =>
          (parse_protocol fuel lx2).bind fun q =>
            match q with
            | .error e => .ok (.error e)
            | .ok lx3 =>
              (parse_crlf fuel lx3).bind fun q2 =>
                match q2 with
                | .error e => .ok (.error e)
                | .ok lx4 =>
                  .ok (.ok ((HttpLib.HttpRequestBuilder.new.with_method m).with_path p, lx4))
        | (some Lex.Token.MaxHeaderSizeExceeded, _) => .ok (.error .MaxHeaderSizeExceeded)
        | (some _, _) => .ok (.error (.Unexpected ("Expected path").toList))
        | (none, _) => .ok (.error .EarlyEof)
    | (some Lex.Token.MaxHeaderSizeExceeded, _) => .ok (.error .MaxHeaderSizeExceeded)
    | (some _, _) => .ok (.error (.Unexpected ("Expected HTTP Method").toList))
    | (none, _) => .ok (.error .EarlyEof)

/-- Modelled from the spec (§4.2 step 2): loop, consuming Crlf (end of
headers) or HeaderName immediately followed by HeaderValue, recorded in the
builder. -/
def parse_header_lines : Nat → Nat → Lex.Lexer → HttpLib.HttpRequestBuilder →
    Out (Except ParseError (HttpLib.HttpRequestBuilder × Lex.Lexer))
  | 0, _, _, _ => .fuelOut
  | n + 1, fuel, lx, b =>
    (Lex.Lexer.next fuel lx).bind fun r =>
      match r with
      | (some Lex.Token.Crlf, lx1) => .ok (.ok (b, lx1))
      | (some (Lex.Token.HeaderName header_name), lx1) =>
        (Lex.Lexer.next fuel lx1).bind fun r2 =>
          match r2 with
          | (some (Lex.Token.HeaderValue header_val), lx2) =>
            parse_header_lines n fuel lx2 (b.with_header header_name header_val)
          | (some Lex.Token.MaxHeaderSizeExceeded, _) => .ok (.error .MaxHeaderSizeExceeded)
          | (some _, _) => .ok (.error (.Unexpected ("Expected header value").toList))
          | (none, _) => .ok (.error .EarlyEof)
      | (some Lex.Token.MaxHeaderSizeExceeded, _) => .ok (.error .MaxHeaderSizeExceeded)
      | (some _, _) => .ok (.error (.Unexpected ("Expected header").toList))
      | (none, _) => .ok (.error .EarlyEof)

/-- Modelled from the spec (§4.2 step 3): record a Body token if one is
available; a terminated token stream leaves the body empty. -/
def parse_body (fuel : Nat) (lx : Lex.Lexer) (b : HttpLib.HttpRequestBuilder) :
    Out (Except ParseError HttpLib.HttpRequestBuilder) :=
  (Lex.Lexer.next fuel lx).bind fun r =>
    match r with
    | (some (Lex.Token.Body bs), _) => .ok (.ok (b.with_body bs))
    | (none, _) => .ok (.ok b)
    | (some Lex.Token.MaxHeaderSizeExceeded, _) => .ok (.error .MaxHeaderSizeExceeded)
    | (some _, _) => .ok (.error (.Unexpected ("Expected body").toList))

/-- Modelled from the spec (§4.2, §6): the public core operation
parse(byte_source) of the rust-http-parse crate, driving the streaming Lexer
of src/src/http/lex.rs through request line, header lines, optional body,
and building the request. -/
def parse_from_reader (fuel : Nat) (input : List Nat) :
    Out (Except ParseError HttpLib.HttpRequest) :=
  (parse_request_line fuel (Lex.Lexer.new input)).bind fun r =>
    match r with
    | .error e => .ok (.error e)
    | .ok (b, lx1) =>
      (parse_header_lines fuel fuel lx1 b).bind fun r2 =>
        match r2 with
        | .error e => .ok (.error e)
        | .ok (b2, lx2) =>
          (parse_body fuel lx2 b2).bind fun r3 =>
            match r3 with
            | .error e => .ok (.error e)
            | .ok b3 => .ok (.ok b3.build)

/-- parse_from_reader with ample fuel for the inputs of this development. -/
def parseRun (input : List Nat) : Out (Except ParseError HttpLib.HttpRequest) :=
  parse_from_reader 4096 input

end NewParse

/-- Bytes of an ASCII string literal used as test input. -/
def strBytes (s : String) : List Nat := utf8Encode s.toList

/-- Whether `kw` is a prefix of the byte list `l`. -/
def bytesMatch : List Nat → List Nat → Bool
  | [], _ => true
  | _ :: _, [] => false
  | k :: ks, b :: bs => k == b && bytesMatch ks bs

/-- Auxiliary scan for blankLineIdx. -/
def blankLineIdxAux : List Nat → Nat → Option Nat
  | [], _ => none
  | b :: t, i =>
    if bytesMatch [13, 10, 13, 10] (b :: t) then some i else blankLineIdxAux t (i + 1)

/-- Byte index of the first CRLFCRLF (the header-section terminator) in an
input, if any: everything before it is the request line plus header section. -/
def blankLineIdx (l : List Nat) : Option Nat := blankLineIdxAux l 0

/-- Input for C1: a valid head with Content-Length 4 whose remaining input is
the single invalid-UTF-8 byte 0xFF (so the bytes after the header terminator
are both fewer than Content-Length and not valid UTF-8). -/
def c1input : List Nat := strBytes "POST / HTTP/1.1\r\nContent-Length: 4\r\n\r\n" ++ [0xFF]

/-- Input for C2: Content-Length 4 but only 2 bytes of body. -/
def c2input : List Nat := strBytes "POST / HTTP/1.1\r\nContent-Length: 4\r\n\r\nab"

/-- Input for C3: no Content-Length header and 1100 bytes of body, of which
only 1006 fit into the single 1 KiB chunk buffered while lexing the head. -/
def c3input : List Nat := strBytes "GET / HTTP/1.1\r\n\r\n" ++ List.replicate 1100 97

/-- Input for C4: well-formed request line, then a header line starting with
`@`, which the header-name rule rejects. -/
def c4input : List Nat := strBytes "GET / HTTP/1.1\r\n@\r\n\r\n"

/-- Input for C5: end of input in the middle of a header name. -/
def c5input : List Nat := strBytes "GET / HTTP/1.1\r\nAbc"

/-- The lexer state reached on c5input after the four request-line tokens:
everything is buffered, the source is exhausted (but is_eof is still unset,
since no read has returned zero bytes yet), and the header-name scan is about
to run off the end of the buffer. -/
def c5St : Lex.Lexer :=
  { buffer := ("GET / HTTP/1.1\r\nAbc").toList,
    state := Lex.LexState.HeaderName,
    pos := 16,
    stream := [],
    is_eof := false,
    expecting_content_length := false,
    content_length := none }

/-- Input for the C6 counterexample: the header section (terminator at byte
9017) far exceeds 8 KiB, but its first header line starts with `@`, which
lexes to Token::Error before position 8 KiB is ever reached. -/
def c6input : List Nat :=
  strBytes "GET / HTTP/1.1\r\n@" ++ List.replicate 9000 97 ++ strBytes "\r\n\r\n"

/-- A lexer state in a header state with the read position beyond 8 KiB and
input remaining, as reached after scanning an 8 KiB-exceeding header section
(an 8200-character buffer of header-name characters with more input unread). -/
def c6St : Lex.Lexer :=
  { buffer := List.replicate 8200 'x',
    state := Lex.LexState.HeaderName,
    pos := 8193,
    stream := List.replicate 100 97,
    is_eof := false,
    expecting_content_length := false,
    content_length := none }

/-- Iterate the lexer: `nextFrom fuel k st` is the (k+1)-th token request
issued from state `st`. -/
def nextFrom (fuel : Nat) : Nat → Lex.Lexer → Out (Option Lex.Token × Lex.Lexer)
  | 0, st => Lex.Lexer.next fuel st
  | k + 1, st => (Lex.Lexer.next fuel st).bind fun r => nextFrom fuel k r.2

/-- Input for C7: an alphabetic word that extends the PATCH keyword. -/
def c7inputA : List Nat := strBytes "PATCHFOO / HTTP/1.1\r\n\r\n"

/-- Second input for C7: an alphabetic word containing the POST keyword at
offset 1, which the unanchored alternatives of the method regex still find. -/
def c7inputB : List Nat := strBytes "XPOST / HTTP/1.1\r\n\r\n"

/-- Input for C10: a header name beginning with the non-ASCII alphanumeric
character é (U+00E9, UTF-8 bytes C3 A9). -/
def c10input : List Nat :=
  strBytes "GET / HTTP/1.1\r\n" ++ [0xC3, 0xA9] ++ strBytes "a: x\r\n\r\n"

/-- The ASCII punctuation characters other than `-` (accepted) and `:` (the
name terminator): code points 0x21-0x2F, 0x3B-0x40, 0x5B-0x60, 0x7B-0x7E
minus 0x2D and 0x3A. -/
def c10punctCodes : List Nat :=
  [0x21, 0x22, 0x23, 0x24, 0x25, 0x26, 0x27, 0x28, 0x29, 0x2A, 0x2B, 0x2C, 0x2E, 0x2F,
   0x3B, 0x3C, 0x3D, 0x3E, 0x3F, 0x40, 0x5B, 0x5C, 0x5D, 0x5E, 0x5F, 0x60,
   0x7B, 0x7C, 0x7D, 0x7E]

/-- Whether lexing a request whose header name contains the character with
code `n` after an accepted character produces exactly Token::Error at the
header-name position. -/
def c10probe (n : Nat) : Bool :=
  Lex.tokensN 5 64 (strBytes "GET / HTTP/1.1\r\na" ++ [n] ++ strBytes "b: x\r\n\r\n")
    == Out.ok [Lex.Token.Method HttpLib.HttpMethod.GET, Lex.Token.Path ['/'],
      Lex.Token.Protocol, Lex.Token.Crlf, Lex.Token.Error]

/-- Structural boolean equality on methods. -/
def methodBeq : HttpLib.HttpMethod → HttpLib.HttpMethod → Bool
  | .GET, .GET => true
  | .HEAD, .HEAD => true
  | .POST, .POST => true
  | .PUT, .PUT => true
  | .PATCH, .PATCH => true
  | .OPTIONS, .OPTIONS => true
  | .TRACE, .TRACE => true
  | _, _ => false

/-- Structural boolean equality on lexer tokens, evaluating in constant stack
space per element so that long bodies can be compared by kernel reduction. -/
def tokBeq : Lex.Token → Lex.Token → Bool
  | .Method a, .Method b => methodBeq a b
  | .Path a, .Path b => a == b
  | .Protocol, .Protocol => true
  | .HeaderName a, .HeaderName b => a == b
  | .HeaderValue a, .HeaderValue b => a == b
  | .Body a, .Body b => a == b
  | .Crlf, .Crlf => true
  | .Error, .Error => true
  | .MaxHeaderSizeExceeded, .MaxHeaderSizeExceeded => true
  | _, _ => false

/-- Structural boolean equality on token lists. -/
def tokListBeq : List Lex.Token → List Lex.Token → Bool
  | [], [] => true
  | a :: as, b :: bs => tokBeq a b && tokListBeq as bs
  | _, _ => false

/-- Structural boolean equality on lexing outcomes. -/
def outToksBeq : Out (List Lex.Token) → Out (List Lex.Token) → Bool
  | .ok a, .ok b => tokListBeq a b
  | .panicked, .panicked => true
  | .fuelOut, .fuelOut => true
  | _, _ => false

/-- ASCII characters back to bytes (the inverse of lossy decoding on ASCII). -/
def asciiBytes (l : List Char) : List Nat := l.map Char.toNat

/-- One header line `name: value CRLF` as written on the wire. -/
def renderHeader (p : List Char × List Char) : List Char :=
  p.1 ++ [':'] ++ p.2 ++ ['\r', '\n']

/-- A header section: the rendered lines in order. -/
def renderHeaders (H : List (List Char × List Char)) : List Char :=
  (H.map renderHeader).flatten

/-- A complete request with the fixed request line `GET / HTTP/1.1`, the given
header lines and the blank-line terminator. -/
def c8inputOf (H : List (List Char × List Char)) : List Nat :=
  strBytes "GET / HTTP/1.1\r\n" ++ asciiBytes (renderHeaders H ++ ['\r', '\n'])

/-- The decoded buffer the lexer holds after its first refill on c8inputOf. -/
def c8buf (H : List (List Char × List Char)) : List Char :=
  ("GET / HTTP/1.1\r\n").toList ++ (renderHeaders H ++ ['\r', '\n'])

/-- ASCII-only character lists (one UTF-8 byte per character). -/
def asciiOnly (l : List Char) : Bool := l.all (fun c => decide (c.toNat < 0x80))

/-- A lexer state over a fully buffered, fully read source: buffer `C`,
state `s`, position `p`, nothing left in the stream, no end-of-file flag, no
armed content-length capture. These are exactly the states the lexer moves
through on a single-chunk input without a content-length header. -/
def lexSt (C : List Char) (s : Lex.LexState) (p : Nat) : Lex.Lexer :=
  { buffer := C, state := s, pos := p, stream := [], is_eof := false,
    expecting_content_length := false, content_length := none }

/-- The byte index `p` lands on a character boundary of `C` and byte-dropping
agrees there with character-dropping (all characters before it are one byte
wide). -/
def bytePos (C : List Char) (p : Nat) : Prop := dropBytes C p = some (List.drop p C)

/-- The value of the last header line carrying the given exact name. -/
def lookupLast (H : List (List Char × List Char)) (n : List Char) : Option (List Char) :=
  (H.reverse.find? (fun p => p.1 == n)).map (fun p => p.2)

/-- ASCII letter or digit. -/
def isAsciiAlnum (c : Char) : Bool :=
  (0x41 ≤ c.toNat && c.toNat ≤ 0x5A) || (0x61 ≤ c.toNat && c.toNat ≤ 0x7A) || isAsciiDigit c

/-- Header names within scope of the round-trip theorem: nonempty, ASCII
alphanumerics or `-` (the production lexer's acceptance, a subset of the
token charset), and not a spelling of content-length (whose capture changes
body handling). -/
def goodName (n : List Char) : Bool :=
  !n.isEmpty && n.all (fun c => isAsciiAlnum c || c == '-') &&
  !(rustToLower n == ("content-length").toList)

/-- Header values within scope of the round-trip theorem: ASCII without CR or
LF. -/
def goodValue (v : List Char) : Bool :=
  v.all (fun c => c.toNat < 0x80 && !(c == '\r') && !(c == '\n'))

/-- No method keyword occurs anywhere in this text: required for a successful
parse, because the unanchored alternatives of the method regex scan the whole
buffered input when the protocol token is matched, and any later occurrence of
a keyword would be lexed as a Method token in place of Protocol. -/
def noMethodKw (l : List Char) : Bool := (methodFindAux l 0 false).isNone

/-- The stuck state of the header-name loop on c5input: the scan position has
run off the end of the buffer, the source is exhausted, and the refill that
the loop keeps retrying appends nothing — `refill_buffer c5Stuck` is c5Stuck
again. -/
def c5Stuck : Lex.Lexer :=
  { buffer := ("GET / HTTP/1.1\r\nAbc").toList,
    state := Lex.LexState.HeaderName,
    pos := 19,
    stream := [],
    is_eof := true,
    expecting_content_length := false,
    content_length := none }

theorem methodBeq_sound : ∀ a b, methodBeq a b = true → a = b := by
  intro a b
  cases a <;> cases b <;> simp [methodBeq]

theorem tokBeq_sound : ∀ a b, tokBeq a b = true → a = b := by
  intro a b
  cases a <;> cases b <;> simp [tokBeq]
  exact methodBeq_sound _ _

theorem tokListBeq_sound : ∀ a b, tokListBeq a b = true → a = b := by
  intro a
  induction a with
  | nil =>
    intro b h
    cases b with
    | nil => rfl
    | cons x xs => simp [tokListBeq] at h
  | cons x xs ih =>
    intro b h
    cases b with
    | nil => simp [tokListBeq] at h
    | cons y ys =>
      simp [tokListBeq] at h
      exact congr (congrArg _ (tokBeq_sound _ _ h.1)) (ih _ h.2)

theorem outToksBeq_sound : ∀ a b, outToksBeq a b = true → a = b := by
  intro a b
  cases a <;> cases b <;> simp [outToksBeq]
  exact tokListBeq_sound _ _

theorem blankAux_replicate : ∀ (n : Nat) (rest : List Nat) (i : Nat),
    blankLineIdxAux (List.replicate n 97 ++ rest) i = blankLineIdxAux rest (i + n) := by
  intro n
  induction n with
  | zero => intro rest i; simp
  | succ n ih =>
    intro rest i
    rw [List.replicate_succ, List.cons_append]
    simp only [blankLineIdxAux,
      show bytesMatch [13, 10, 13, 10] (97 :: (List.replicate n 97 ++ rest)) = false from rfl,
      Bool.false_eq_true, if_false]
    rw [ih]
    exact congrArg (blankLineIdxAux rest) (by omega)

/-- C1: refuted (code bug). The claim says the top-level parse returns Ok or
Err and never panics, even when fewer bytes than Content-Length follow the
header terminator and even on invalid UTF-8. On c1input (Content-Length 4,
then the lone invalid byte 0xFF), lex_body slices
`buffer[pos..pos + 4]` past the end of the buffer, a panic. -/
theorem claim_C1 : NewParse.parseRun c1input = Out.panicked := rfl

/-- C2: refuted (code bug). The claim says that with Content-Length N and
fewer than N readable body bytes the parse returns ParseError::EarlyEof; on
c2input (Content-Length 4, body `ab`) the body slice
`buffer[pos..pos + 4]` overruns the buffer instead: a panic, not EarlyEof. -/
theorem claim_C2 : NewParse.parseRun c2input = Out.panicked := rfl

/-- C3: refuted (code bug). The claim says that without a Content-Length the
lexer reads to end of input and the body equals the whole residual input. On
c3input (1100 residual body bytes, 1006 of which sit in the single 1 KiB
chunk buffered while lexing the head) the guard of
fill_buffer_until_content_length_or_eof returns before its read-to-eof
branch (dead code), so the Body token holds only the 1006 buffered bytes and
the final lexer state still carries 94 unread bytes in the source. -/
theorem claim_C3 :
    Lex.tokensN 10 4096 c3input =
      Out.ok [Lex.Token.Method HttpLib.HttpMethod.GET, Lex.Token.Path ['/'],
        Lex.Token.Protocol, Lex.Token.Crlf, Lex.Token.Crlf,
        Lex.Token.Body (List.replicate 1006 97)] ∧
    (Lex.runN 10 4096 (Lex.Lexer.new c3input)).bind (fun r => Out.ok r.2.stream) =
      Out.ok (List.replicate 94 97) :=
  ⟨outToksBeq_sound _ _ rfl, rfl⟩

/-- C4: refuted (code bug). The claim says parse_from_reader returns Err on
any header-section grammar deviation and never Ok with a partially populated
request. On c4input the header line `@` lexes to Token::Error, so
parse_header_lines returns Err(Unexpected "Expected header") — but
parse_from_reader (src/src/http/parse.rs line 231) discards that Result and
returns Ok with the request built from the request line alone. -/
theorem claim_C4 :
    OldParse.parseRun c4input =
      Out.ok (Except.ok (OldParse.HttpRequest.new ("GET").toList ("/").toList)) := rfl

/-- C7: refuted (code bug). The claim says a Method token is emitted only for
a method keyword followed by a whitespace/EOF boundary, and in particular not
for words like PATCHFOO. The method regex `^GET|POST|PUT|PATCH|HEAD|OPTIONS|TRACE`
has no boundary assertion (and anchors only GET), so `PATCHFOO …` emits
Method(PATCH) and `XPOST …` even matches POST at offset 1 inside the word. -/
theorem claim_C7 :
    Lex.tokensN 2 64 c7inputA =
      Out.ok [Lex.Token.Method HttpLib.HttpMethod.PATCH, Lex.Token.Error] ∧
    Lex.tokensN 2 64 c7inputB =
      Out.ok [Lex.Token.Method HttpLib.HttpMethod.POST, Lex.Token.Path ['/']] :=
  ⟨rfl, rfl⟩

/-- C9: refuted (code bug). The claim says the body-as-text accessor
substitutes replacement characters on invalid UTF-8 rather than failing;
HttpBody::as_str is `std::str::from_utf8(..).unwrap()`, which panics (none)
on the invalid body 0xFF, and body_as_string delegates to it. -/
theorem claim_C9 :
    HttpLib.HttpBody.as_str (HttpLib.HttpBody.from_content [0xFF]) = none ∧
    HttpLib.HttpRequest.body_as_string
      { method := HttpLib.HttpMethod.POST, path := ['/'], headers := [],
        body := ⟨[0xFF]⟩ } = none :=
  ⟨rfl, rfl⟩

/-- C10: confirmed. The header-name acceptance is exactly Unicode-alphanumeric
or `-`; lexing a header name beginning with é (U+00E9) emits a HeaderName
token containing é (the 5th token of c10input); and every ASCII punctuation
character other than `-` and `:` in a header name produces Token::Error
(c10probe runs the lexer on a request whose header name embeds each such
character). -/
theorem claim_C10 :
    (∀ c, Lex.is_valid_header_name_char c = (rustIsAlphanumeric c || c == '-')) ∧
    Lex.tokensN 6 64 c10input =
      Out.ok [Lex.Token.Method HttpLib.HttpMethod.GET, Lex.Token.Path ['/'],
        Lex.Token.Protocol, Lex.Token.Crlf,
        Lex.Token.HeaderName [Char.ofNat 0xE9], Lex.Token.Error] ∧
    c10punctCodes.all c10probe = true :=
  ⟨fun _ => rfl, rfl, rfl⟩

theorem c6_next (st : Lex.Lexer)
    (hs : st.state = Lex.LexState.RequestLine ∨ st.state = Lex.LexState.HeaderName ∨
      st.state = Lex.LexState.HeaderValue)
    (heof : st.is_eof = false)
    (hpos : Lex.MAX_HEADER_SIZE < st.pos) :
    ∀ fuel, Lex.Lexer.next fuel st = Out.ok (some Lex.Token.MaxHeaderSizeExceeded, st) := by
  intro fuel
  rcases hs with h | h | h <;>
    simp only [Lex.Lexer.next, heof, h, Bool.false_and, Bool.false_eq_true, if_false,
      Lex.header_size_exceeded, decide_eq_true hpos, if_true, Out.bind]

/-- C6 (amended): in a header state with input remaining and the read position
beyond 8 KiB, every token request returns MaxHeaderSizeExceeded with the
lexer unchanged — so, contrary to the claim's "no further tokens are produced
afterwards", the iterator keeps yielding MaxHeaderSizeExceeded forever — and
the parser's header loop maps the first such token to
ParseError::MaxHeaderSizeExceeded. The claim's final universally quantified
consequence also fails as stated: an oversized header section whose bytes lex
to Token::Error before the guard trips yields Unexpected instead (see the
counterexample). -/
theorem claim_C6 (st : Lex.Lexer)
    (hs : st.state = Lex.LexState.RequestLine ∨ st.state = Lex.LexState.HeaderName ∨
      st.state = Lex.LexState.HeaderValue)
    (heof : st.is_eof = false)
    (hpos : Lex.MAX_HEADER_SIZE < st.pos) :
    (∀ fuel k, nextFrom fuel k st = Out.ok (some Lex.Token.MaxHeaderSizeExceeded, st)) ∧
    (∀ n fuel b, NewParse.parse_header_lines (n + 1) fuel st b =
      Out.ok (Except.error NewParse.ParseError.MaxHeaderSizeExceeded)) := by
  have hnext := c6_next st hs heof hpos
  constructor
  · intro fuel k
    induction k with
    | zero => exact hnext fuel
    | succ k ih => simp only [nextFrom, hnext, Out.bind, ih]
  · intro n fuel b
    simp only [NewParse.parse_header_lines, hnext, Out.bind]

theorem claim_C6_witness :
    nextFrom 64 0 c6St = Out.ok (some Lex.Token.MaxHeaderSizeExceeded, c6St) ∧
    nextFrom 64 5 c6St = Out.ok (some Lex.Token.MaxHeaderSizeExceeded, c6St) ∧
    NewParse.parse_header_lines 3 64 c6St HttpLib.HttpRequestBuilder.new =
      Out.ok (Except.error NewParse.ParseError.MaxHeaderSizeExceeded) :=
  ⟨(claim_C6 c6St (Or.inr (Or.inl rfl)) rfl (by decide)).1 64 0,
   (claim_C6 c6St (Or.inr (Or.inl rfl)) rfl (by decide)).1 64 5,
   (claim_C6 c6St (Or.inr (Or.inl rfl)) rfl (by decide)).2 2 64 HttpLib.HttpRequestBuilder.new⟩

/-- C6 counterexample: c6input's header section is larger than 8 KiB (its
blank-line terminator sits at byte 17 + 9000 of the input, far past 8192),
yet the parse yields Unexpected("Expected header") — not
MaxHeaderSizeExceeded — because the `@` at the start of its first header
line lexes to Token::Error at position 16, before the 8 KiB guard can trip.
This falsifies the claim's "for any input whose header section exceeds 8 KiB,
the parse yields MaxHeaderSizeExceeded". -/
theorem claim_C6_cx :
    NewParse.parseRun c6input =
      Out.ok (Except.error (NewParse.ParseError.Unexpected ("Expected header").toList)) ∧
    blankLineIdx (List.drop 17 c6input) = some 9000 := by
  constructor
  · rfl
  · rw [show List.drop 17 c6input = List.replicate 9000 97 ++ strBytes "\r\n\r\n" from rfl]
    show blankLineIdxAux (List.replicate 9000 97 ++ strBytes "\r\n\r\n") 0 = some 9000
    rw [blankAux_replicate]
    rfl

theorem c5_loop : ∀ fuel sp, Lex.lex_header_name_loop fuel c5Stuck sp = Out.fuelOut := by
  intro fuel
  induction fuel with
  | zero => intro sp; rfl
  | succ fuel ih => intro sp; exact ih sp

theorem c5_hn : ∀ fuel, Lex.lex_header_name fuel c5St = Out.fuelOut := by
  intro fuel
  match fuel with
  | 0 => rfl
  | 1 => rfl
  | 2 => rfl
  | 3 => rfl
  | n + 4 => exact c5_loop n 16

/-- C5: refuted (code bug). The claim says a source that ends before the
header section is complete makes the lexer terminate after finitely many
reads with the parse returning EarlyEof. On c5input (end of input inside the
header name `Abc`) the four request-line tokens are produced and the lexer
reaches c5St; the next token request then never returns: the header-name
loop's buffer-exhausted arm calls refill_buffer — which reads zero bytes and
sets is_eof — and retries without ever checking is_eof, so for every fuel the
outcome is fuel exhaustion (the Rust loop spins forever re-reading zero
bytes). -/
theorem claim_C5 :
    Lex.runN 4 64 (Lex.Lexer.new c5input) =
      Out.ok ([Lex.Token.Method HttpLib.HttpMethod.GET, Lex.Token.Path ['/'],
        Lex.Token.Protocol, Lex.Token.Crlf], c5St) ∧
    ∀ fuel, Lex.Lexer.next fuel c5St = Out.fuelOut := by
  refine ⟨rfl, fun fuel => ?_⟩
  change Out.bind (Lex.lex_header_name fuel c5St) _ = Out.fuelOut
  rw [c5_hn]
  rfl

theorem nameChar_facts (c : Char) (h : (isAsciiAlnum c || c == '-') = true) :
    (c == ':') = false ∧ (c == '\r') = false ∧ Lex.is_valid_header_name_char c = true ∧
    charUtf8Len c = 1 ∧ c.toNat < 0x80 := by
  have h' : (0x41 ≤ c.toNat ∧ c.toNat ≤ 0x5A) ∨ (0x61 ≤ c.toNat ∧ c.toNat ≤ 0x7A) ∨
      (0x30 ≤ c.toNat ∧ c.toNat ≤ 0x39) ∨ c = '-' := by
    simp [isAsciiAlnum, isAsciiDigit, Bool.or_eq_true, Bool.and_eq_true,
      decide_eq_true_eq, beq_iff_eq] at h
    tauto
  have hne : ∀ d : Char, c.toNat ≠ d.toNat → (c == d) = false := by
    intro d hd
    exact beq_eq_false_iff_ne.mpr (fun he => hd (by rw [he]))
  have hrange : c.toNat < 0x80 ∧ c.toNat ≠ 58 ∧ c.toNat ≠ 13 := by
    rcases h' with h' | h' | h' | rfl
    · exact ⟨by omega, by omega, by omega⟩
    · exact ⟨by omega, by omega, by omega⟩
    · exact ⟨by omega, by omega, by omega⟩
    · exact ⟨by decide, by decide, by decide⟩
  refine ⟨hne ':' hrange.2.1, hne '\r' hrange.2.2, ?_, ?_, hrange.1⟩
  · rcases h' with h' | h' | h' | rfl
    · have ha : rustIsAlphabetic c = true := by
        simp only [rustIsAlphabetic, Bool.or_eq_true, Bool.and_eq_true, decide_eq_true_eq]
        omega
      simp [Lex.is_valid_header_name_char, rustIsAlphanumeric, ha]
    · have ha : rustIsAlphabetic c = true := by
        simp only [rustIsAlphabetic, Bool.or_eq_true, Bool.and_eq_true, decide_eq_true_eq]
        omega
      simp [Lex.is_valid_header_name_char, rustIsAlphanumeric, ha]
    · have ha : rustIsNumeric c = true := by
        simp only [rustIsNumeric, Bool.or_eq_true, Bool.and_eq_true, decide_eq_true_eq]
        omega
      simp [Lex.is_valid_header_name_char, rustIsAlphanumeric, ha]
    · decide
  · simp only [charUtf8Len, hrange.1, if_pos]

theorem valueChar_facts (c : Char)
    (h : (decide (c.toNat < 0x80) && !(c == '\r') && !(c == '\n')) = true) :
    (c == '\r') = false ∧ Lex.is_valid_header_value_char c = true ∧
    charUtf8Len c = 1 ∧ c.toNat < 0x80 := by
  simp only [Bool.and_eq_true, Bool.not_eq_true', decide_eq_true_eq] at h
  refine ⟨h.1.2, ?_, ?_, h.1.1⟩
  · simp [Lex.is_valid_header_value_char, h.1.2, h.2]
  · simp only [charUtf8Len, h.1.1, if_pos]

theorem takeBytes_zero (l : List Char) : takeBytes l 0 = some [] := by
  cases l <;> simp [takeBytes]

theorem dropBytes_zero (l : List Char) : dropBytes l 0 = some l := by
  cases l <;> simp [dropBytes]

theorem dropBytes_succ : ∀ (C : List Char) (p : Nat) (c : Char) (t : List Char),
    dropBytes C p = some (c :: t) → charUtf8Len c = 1 → dropBytes C (p + 1) = some t := by
  intro C
  induction C with
  | nil =>
    intro p c t h _
    cases p with
    | zero => simp [dropBytes] at h
    | succ p => simp [dropBytes] at h
  | cons x xs ih =>
    intro p c t h h1
    cases p with
    | zero =>
      simp only [dropBytes, Option.some.injEq] at h
      injection h with hx hxs
      subst hx
      subst hxs
      show dropBytes (x :: xs) 1 = some xs
      simp only [dropBytes]
      rw [if_pos (by omega)]
      rw [show 1 - charUtf8Len x = 0 from by omega]
      simp [dropBytes_zero]
    | succ p =>
      rw [show dropBytes (x :: xs) (p + 1) =
        if charUtf8Len x ≤ p + 1 then dropBytes xs (p + 1 - charUtf8Len x) else none from rfl]
        at h
      by_cases hx : charUtf8Len x ≤ p + 1
      · rw [if_pos hx] at h
        have h2 := ih _ _ _ h h1
        rw [show dropBytes (x :: xs) (p + 1 + 1) =
          if charUtf8Len x ≤ p + 2 then dropBytes xs (p + 2 - charUtf8Len x) else none from rfl]
        rw [if_pos (by omega)]
        rw [show p + 2 - charUtf8Len x = p + 1 - charUtf8Len x + 1 from by omega]
        exact h2
      · rw [if_neg hx] at h
        exact absurd h (by simp)

theorem takeBytes_ascii : ∀ (l R : List Char), asciiOnly l = true →
    takeBytes (l ++ R) l.length = some l := by
  intro l
  induction l with
  | nil => intro R _; simp [takeBytes_zero]
  | cons c t ih =>
    intro R hl
    simp only [asciiOnly, List.all_cons, Bool.and_eq_true, decide_eq_true_eq] at hl
    have hc1 : charUtf8Len c = 1 := by simp only [charUtf8Len, hl.1, if_pos]
    show takeBytes (c :: (t ++ R)) (t.length + 1) = some (c :: t)
    simp only [takeBytes]
    rw [if_pos (by omega), hc1]
    rw [show t.length + 1 - 1 = t.length from by omega]
    rw [ih R (by simp [asciiOnly, hl.2])]
    rfl

theorem drop_shift (C : List Char) (p : Nat) (c : Char) (rest : List Char)
    (h : List.drop p C = c :: rest) : List.drop (p + 1) C = rest := by
  have h2 : List.drop 1 (List.drop p C) = List.drop (p + 1) C := by
    rw [List.drop_drop]
  rw [← h2, h]
  rfl

theorem bytePos_succ (C : List Char) (p : Nat) (c : Char) (rest : List Char)
    (h : bytePos C p) (hd : List.drop p C = c :: rest) (h1 : charUtf8Len c = 1) :
    bytePos C (p + 1) := by
  unfold bytePos at *
  rw [hd] at h
  rw [dropBytes_succ C p c rest h h1, drop_shift C p c rest hd]

theorem get?_of_drop (C : List Char) (p : Nat) (c : Char) (rest : List Char)
    (hd : List.drop p C = c :: rest) : C.get? p = some c := by
  have h2 : (C.drop p).get? 0 = C.get? (p + 0) := List.get?_drop ..
  rw [hd] at h2
  simpa using h2.symm

theorem bytePos_advance : ∀ (A : List Char) (C : List Char) (p : Nat) (R : List Char),
    bytePos C p → List.drop p C = A ++ R → asciiOnly A = true →
    bytePos C (p + A.length) := by
  intro A
  induction A with
  | nil => intro C p R h _ _; simpa using h
  | cons c t ih =>
    intro C p R h hd ha
    simp only [asciiOnly, List.all_cons, Bool.and_eq_true, decide_eq_true_eq] at ha
    have hc1 : charUtf8Len c = 1 := by simp only [charUtf8Len, ha.1, if_pos]
    have h1 : bytePos C (p + 1) :=
      bytePos_succ C p c (t ++ R) h (by simpa using hd) hc1
    have h2 : List.drop (p + 1) C = t ++ R :=
      drop_shift C p c (t ++ R) (by simpa using hd)
    have h3 := ih C (p + 1) R h1 h2 (by simp [asciiOnly, ha.2])
    rw [show p + (c :: t).length = p + 1 + t.length from by simp; omega]
    exact h3

theorem byteSlice_of_drop (C : List Char) (p : Nat) (A R : List Char)
    (h : bytePos C p) (hd : List.drop p C = A ++ R) (ha : asciiOnly A = true) :
    byteSlice C p (p + A.length) = some A := by
  unfold byteSlice
  unfold bytePos at h
  rw [if_pos (by omega), h, hd]
  show (takeBytes (A ++ R) (p + A.length - p)) = some A
  rw [show p + A.length - p = A.length from by omega]
  exact takeBytes_ascii A R ha

theorem loop_name (C : List Char) :
    ∀ (nmr : List Char) (fuel : Nat) (st : Lex.Lexer) (sp : Nat) (done rest : List Char),
    st.buffer = C →
    nmr.length + 1 ≤ fuel →
    nmr.all (fun c => isAsciiAlnum c || c == '-') = true →
    asciiOnly done = true →
    st.pos = sp + done.length →
    bytePos C sp →
    List.drop sp C = done ++ nmr ++ [':'] ++ rest →
    st.pos + nmr.length ≤ 8192 →
    Lex.lex_header_name_loop fuel st sp =
      Out.ok (Lex.Token.HeaderName (done ++ nmr), some Lex.LexState.HeaderValue,
        { st with pos := st.pos + nmr.length + 1,
                  expecting_content_length :=
                    rustToLower (done ++ nmr) == ("content-length").toList }) := by
  intro nmr
  induction nmr with
  | nil =>
    intro fuel st sp done rest hbuf hfuel hall hdone hpos hbp hdrop hsz
    match fuel, hfuel with
    | fuel + 1, _ =>
    have hdropPos : List.drop st.pos C = ':' :: rest := by
      rw [hpos]
      have h9 : List.drop (sp + done.length) C = List.drop done.length (List.drop sp C) := by
        rw [List.drop_drop]
      rw [h9, hdrop]
      simp [List.drop_left]
    have hget : st.buffer.get? st.pos = some ':' := by
      rw [hbuf]; exact get?_of_drop C st.pos ':' rest hdropPos
    have hslice : byteSlice st.buffer sp st.pos = some done := by
      rw [hbuf, hpos]
      exact byteSlice_of_drop C sp done ([':'] ++ rest) hbp (by simpa using hdrop) hdone
    simp only [Lex.lex_header_name_loop, hget]
    rw [show (':' == ':') = true from rfl]
    simp only [if_true, hslice]
    simp
  | cons c t ih =>
    intro fuel st sp done rest hbuf hfuel hall hdone hpos hbp hdrop hsz
    match fuel, hfuel with
    | fuel + 1, hfuel2 =>
    simp only [List.all_cons, Bool.and_eq_true] at hall
    have hsz2 : st.pos + t.length + 1 ≤ 8192 := by
      simp only [List.length_cons] at hsz
      omega
    have hf2 : t.length + 1 ≤ fuel := by
      simp only [List.length_cons] at hfuel2
      omega
    obtain ⟨hcf1, hcf2, hcf3, hcf4, hcf5⟩ := nameChar_facts c hall.1
    have hdropPos : List.drop st.pos C = c :: (t ++ [':'] ++ rest) := by
      rw [hpos]
      have h9 : List.drop (sp + done.length) C = List.drop done.length (List.drop sp C) := by
        rw [List.drop_drop]
      rw [h9, hdrop]
      simp [List.drop_left]
    have hget : st.buffer.get? st.pos = some c := by
      rw [hbuf]; exact get?_of_drop C st.pos c _ hdropPos
    have hszf : Lex.header_size_exceeded st = false := by
      simp only [Lex.header_size_exceeded, Lex.MAX_HEADER_SIZE, decide_eq_false_iff_not, not_lt]
      omega
    simp only [Lex.lex_header_name_loop, hget, hcf1, hszf, hcf3, Bool.false_eq_true, if_false,
      if_true]
    have hih := ih fuel { st with pos := st.pos + 1 } sp (done ++ [c]) rest
      (by simpa using hbuf)
      hf2
      hall.2
      (by simp [asciiOnly] at hdone ⊢; exact ⟨hdone, hcf5⟩)
      (by show st.pos + 1 = sp + (done ++ [c]).length
          simp only [List.length_append, List.length_cons, List.length_nil]
          omega)
      hbp
      (by rw [hdrop]; simp)
      (by show st.pos + 1 + t.length ≤ 8192
          omega)
    rw [hih]
    have hre : done ++ [c] ++ t = done ++ c :: t := by simp
    simp only [hre]
    have hpe : st.pos + 1 + t.length + 1 = st.pos + (c :: t).length + 1 := by
      simp only [List.length_cons]; omega
    rw [hpe]

theorem end_header_value (C : List Char) (st : Lex.Lexer) (value rest : List Char)
    (hbuf : st.buffer = C)
    (hbp : bytePos C st.pos)
    (hdrop : List.drop st.pos C = '\r' :: '\n' :: rest)
    (hexp : st.expecting_content_length = false) :
    Lex.lex_end_header_value value st =
      Out.ok (Lex.Token.HeaderValue (trimStart value), some Lex.LexState.HeaderName,
        { st with pos := st.pos + 2 }) := by
  have hslice : sliceFrom st.buffer st.pos = some ('\r' :: '\n' :: rest) := by
    rw [hbuf]
    unfold bytePos at hbp
    rw [show sliceFrom C st.pos = dropBytes C st.pos from rfl, hbp, hdrop]
  simp only [Lex.lex_end_header_value, hslice,
    show matchesAt ['\r', '\n'] ('\r' :: '\n' :: rest) = true from rfl, if_true, hexp,
    Bool.false_eq_true, if_false]

theorem loop_value (C : List Char) :
    ∀ (vr : List Char) (fuel : Nat) (st : Lex.Lexer) (sp : Nat) (done rest : List Char),
    st.buffer = C →
    vr.length + 1 ≤ fuel →
    vr.all (fun c => decide (c.toNat < 0x80) && !(c == '\r') && !(c == '\n')) = true →
    asciiOnly done = true →
    st.pos = sp + done.length →
    bytePos C sp →
    List.drop sp C = done ++ vr ++ ['\r', '\n'] ++ rest →
    st.pos + vr.length ≤ 8192 →
    st.expecting_content_length = false →
    Lex.lex_header_value_loop fuel st sp =
      Out.ok (Lex.Token.HeaderValue (trimStart (done ++ vr)), some Lex.LexState.HeaderName,
        { st with pos := st.pos + vr.length + 2 }) := by
  intro vr
  induction vr with
  | nil =>
    intro fuel st sp done rest hbuf hfuel hall hdone hpos hbp hdrop hsz hexp
    match fuel, hfuel with
    | fuel + 1, _ =>
    have hdropPos : List.drop st.pos C = '\r' :: '\n' :: rest := by
      rw [hpos]
      have h9 : List.drop (sp + done.length) C = List.drop done.length (List.drop sp C) := by
        rw [List.drop_drop]
      rw [h9, hdrop]
      simp [List.drop_left]
    have hget : st.buffer.get? st.pos = some '\r' := by
      rw [hbuf]; exact get?_of_drop C st.pos '\r' _ hdropPos
    have hslice : byteSlice st.buffer sp st.pos = some done := by
      rw [hbuf, hpos]
      exact byteSlice_of_drop C sp done (['\r', '\n'] ++ rest) hbp (by simpa using hdrop) hdone
    have hbpPos : bytePos C st.pos := by
      rw [hpos]
      exact bytePos_advance done C sp (['\r', '\n'] ++ rest) hbp (by simpa using hdrop) hdone
    simp only [Lex.lex_header_value_loop, hget]
    rw [show ('\r' == '\r') = true from rfl]
    simp only [if_true, hslice]
    rw [end_header_value C st done rest hbuf hbpPos hdropPos hexp]
    simp
  | cons c t ih =>
    intro fuel st sp done rest hbuf hfuel hall hdone hpos hbp hdrop hsz hexp
    match fuel, hfuel with
    | fuel + 1, hfuel2 =>
    simp only [List.all_cons, Bool.and_eq_true] at hall
    have hallc : (decide (c.toNat < 0x80) && !(c == '\r') && !(c == '\n')) = true := by
      simp only [Bool.and_eq_true]
      exact hall.1
    obtain ⟨hcf1, hcf2, hcf3, hcf4⟩ := valueChar_facts c hallc
    have hsz2 : st.pos + t.length + 1 ≤ 8192 := by
      simp only [List.length_cons] at hsz
      omega
    have hf2 : t.length + 1 ≤ fuel := by
      simp only [List.length_cons] at hfuel2
      omega
    have hdropPos : List.drop st.pos C = c :: (t ++ ['\r', '\n'] ++ rest) := by
      rw [hpos]
      have h9 : List.drop (sp + done.length) C = List.drop done.length (List.drop sp C) := by
        rw [List.drop_drop]
      rw [h9, hdrop]
      simp [List.drop_left]
    have hget : st.buffer.get? st.pos = some c := by
      rw [hbuf]; exact get?_of_drop C st.pos c _ hdropPos
    have hszf : Lex.header_size_exceeded st = false := by
      simp only [Lex.header_size_exceeded, Lex.MAX_HEADER_SIZE, decide_eq_false_iff_not, not_lt]
      omega
    simp only [Lex.lex_header_value_loop, hget, hcf1, hszf, hcf2, Bool.false_eq_true, if_false,
      if_true]
    have hih := ih fuel { st with pos := st.pos + 1 } sp (done ++ [c]) rest
      (by simpa using hbuf)
      hf2
      hall.2
      (by simp [asciiOnly] at hdone ⊢; exact ⟨hdone, hcf4⟩)
      (by show st.pos + 1 = sp + (done ++ [c]).length
          simp only [List.length_append, List.length_cons, List.length_nil]
          omega)
      hbp
      (by rw [hdrop]; simp)
      (by show st.pos + 1 + t.length ≤ 8192
          omega)
      (by show st.expecting_content_length = false
          exact hexp)
    rw [hih]
    have hre : done ++ [c] ++ t = done ++ c :: t := by simp
    simp only [hre]
    have hpe : st.pos + 1 + t.length + 2 = st.pos + (c :: t).length + 2 := by
      simp only [List.length_cons]; omega
    rw [hpe]

theorem goodName_destruct (nm : List Char) (h : goodName nm = true) :
    nm ≠ [] ∧ nm.all (fun c => isAsciiAlnum c || c == '-') = true ∧
    (rustToLower nm == ("content-length").toList) = false := by
  simp only [goodName, Bool.and_eq_true, Bool.not_eq_true'] at h
  obtain ⟨⟨h1, h2⟩, h3⟩ := h
  refine ⟨fun he => ?_, h2, h3⟩
  rw [he] at h1
  simp at h1

theorem nameAll_ascii (nm : List Char)
    (h : nm.all (fun c => isAsciiAlnum c || c == '-') = true) : asciiOnly nm = true := by
  simp only [asciiOnly, List.all_eq_true, decide_eq_true_eq] at h ⊢
  intro c hc
  exact (nameChar_facts c (h c hc)).2.2.2.2

theorem valueAll_ascii (v : List Char) (h : goodValue v = true) : asciiOnly v = true := by
  simp only [goodValue, asciiOnly, List.all_eq_true, decide_eq_true_eq] at h ⊢
  intro c hc
  exact (valueChar_facts c (h c hc)).2.2.2

theorem next_header_name (C : List Char) (fuel p : Nat) (nm tail : List Char)
    (hnm : goodName nm = true)
    (hfuel : nm.length + 1 ≤ fuel)
    (hbp : bytePos C p)
    (hdrop : List.drop p C = nm ++ [':'] ++ tail)
    (hsz : p + nm.length ≤ 8192) :
    Lex.Lexer.next fuel (lexSt C Lex.LexState.HeaderName p) =
      Out.ok (some (Lex.Token.HeaderName nm),
        lexSt C Lex.LexState.HeaderValue (p + nm.length + 1)) := by
  obtain ⟨hne, hall, hncl⟩ := goodName_destruct nm hnm
  obtain ⟨n0, nm', rfl⟩ : ∃ n0 nm', nm = n0 :: nm' := by
    cases nm with
    | nil => exact absurd rfl hne
    | cons a b => exact ⟨a, b, rfl⟩
  simp only [List.all_cons, Bool.and_eq_true] at hall
  have hfacts := nameChar_facts n0 hall.1
  have hdropP : List.drop p C = n0 :: (nm' ++ [':'] ++ tail) := by
    rw [hdrop]; simp
  have hget : (lexSt C Lex.LexState.HeaderName p).buffer.get? (lexSt C Lex.LexState.HeaderName p).pos
      = some n0 := get?_of_drop C p n0 _ hdropP
  have hner : (some n0 == some '\r') = false := by
    have : n0 ≠ '\r' := fun he => by
      rw [he] at hfacts
      simp at hfacts
    exact beq_eq_false_iff_ne.mpr (by simpa using this)
  have hszf : Lex.header_size_exceeded (lexSt C Lex.LexState.HeaderName p) = false := by
    simp only [Lex.header_size_exceeded, Lex.MAX_HEADER_SIZE, decide_eq_false_iff_not, not_lt,
      lexSt]
    simp only [List.length_cons] at hsz
    omega
  have hloop := loop_name C (n0 :: nm') fuel (lexSt C Lex.LexState.HeaderName p) p [] tail
    rfl hfuel (by simp [List.all_cons, Bool.and_eq_true, hall.1, hall.2])
    (by simp [asciiOnly]) (by simp [lexSt]) hbp (by simpa using hdrop)
    (by simp only [lexSt, List.length_cons] at hsz ⊢; omega)
  have hncl2 : (rustToLower (n0 :: nm') ==
      ['c','o','n','t','e','n','t','-','l','e','n','g','t','h']) = false := hncl
  simp only [Lex.Lexer.next, lexSt, Bool.false_and, Bool.false_eq_true, if_false,
    Lex.lex_header_name, hszf]
  simp only [lexSt] at hget hloop hszf
  simp only [hget, hner, Bool.false_eq_true, if_false, hloop, Out.bind, hszf]
  simp [lexSt, hncl2, List.length_cons]

theorem next_header_value (C : List Char) (fuel p : Nat) (v tail : List Char)
    (hv : goodValue v = true)
    (hfuel : v.length + 1 ≤ fuel)
    (hbp : bytePos C p)
    (hdrop : List.drop p C = v ++ ['\r', '\n'] ++ tail)
    (hsz : p + v.length ≤ 8192) :
    Lex.Lexer.next fuel (lexSt C Lex.LexState.HeaderValue p) =
      Out.ok (some (Lex.Token.HeaderValue (trimStart v)),
        lexSt C Lex.LexState.HeaderName (p + v.length + 2)) := by
  have hszf : Lex.header_size_exceeded (lexSt C Lex.LexState.HeaderValue p) = false := by
    simp only [Lex.header_size_exceeded, Lex.MAX_HEADER_SIZE, decide_eq_false_iff_not, not_lt,
      lexSt]
    omega
  have hloop := loop_value C v fuel (lexSt C Lex.LexState.HeaderValue p) p [] tail
    rfl hfuel (by simpa [goodValue] using hv) (by simp [asciiOnly]) (by simp [lexSt]) hbp
    (by simpa using hdrop) (by simp only [lexSt]; omega) (by simp [lexSt])
  simp only [Lex.Lexer.next, lexSt, Bool.false_and, Bool.false_eq_true, if_false,
    Lex.lex_header_value, hszf]
  simp only [lexSt] at hloop hszf
  simp only [hszf, Bool.false_eq_true, if_false, hloop, Out.bind]
  simp [lexSt]

theorem next_blank (C : List Char) (fuel p : Nat) (tail : List Char)
    (hbp : bytePos C p)
    (hdrop : List.drop p C = '\r' :: '\n' :: tail)
    (hsz : p ≤ 8192) :
    Lex.Lexer.next fuel (lexSt C Lex.LexState.HeaderName p) =
      Out.ok (some Lex.Token.Crlf, lexSt C Lex.LexState.Body (p + 2)) := by
  have hszf : Lex.header_size_exceeded (lexSt C Lex.LexState.HeaderName p) = false := by
    simp only [Lex.header_size_exceeded, Lex.MAX_HEADER_SIZE, decide_eq_false_iff_not, not_lt,
      lexSt]
    omega
  have hget : C.get? p = some '\r' := get?_of_drop C p '\r' _ hdrop
  have hslice : sliceFrom C p = some ('\r' :: '\n' :: tail) := by
    unfold bytePos at hbp
    rw [show sliceFrom C p = dropBytes C p from rfl, hbp, hdrop]
  simp only [Lex.Lexer.next, lexSt, Bool.false_and, Bool.false_eq_true, if_false,
    Lex.lex_header_name, hszf]
  simp only [lexSt] at hszf
  simp only [hszf, Bool.false_eq_true, if_false, hget,
    show (some '\r' == some '\r') = true from rfl, if_true, Lex.lex_end_headers]
  simp only [hslice, show matchesAt ['\r', '\n'] ('\r' :: '\n' :: tail) = true from rfl,
    if_true, Out.bind]

theorem next_body_empty (C : List Char) (fuel p : Nat)
    (hbp : bytePos C p)
    (hdrop : List.drop p C = []) :
    Lex.Lexer.next fuel (lexSt C Lex.LexState.Body p) =
      Out.ok (some (Lex.Token.Body []), lexSt C Lex.LexState.End p) := by
  have hslice : sliceFrom C p = some [] := by
    unfold bytePos at hbp
    rw [show sliceFrom C p = dropBytes C p from rfl, hbp, hdrop]
  simp only [Lex.Lexer.next, lexSt, Bool.false_and, Bool.false_eq_true, if_false,
    Lex.fill_buffer_until_content_length_or_eof, Option.isNone_none, Bool.or_true, if_true,
    Out.bind, Lex.lex_body]
  simp only [hslice]
  simp [utf8Encode, lexSt]

theorem renderHeader_ascii (q : List Char × List Char)
    (hn : goodName q.1 = true) (hv : goodValue q.2 = true) :
    asciiOnly (renderHeader q) = true := by
  obtain ⟨_, hall, _⟩ := goodName_destruct q.1 hn
  have h1 := nameAll_ascii q.1 hall
  have h2 := valueAll_ascii q.2 hv
  simp only [renderHeader, asciiOnly, List.all_append, Bool.and_eq_true]
  simp only [asciiOnly] at h1 h2
  refine ⟨⟨⟨h1, by decide⟩, h2⟩, by decide⟩

theorem renderHeaders_cons (q : List Char × List Char) (t : List (List Char × List Char)) :
    renderHeaders (q :: t) = renderHeader q ++ renderHeaders t := by
  simp [renderHeaders]

theorem renderHeader_length (q : List Char × List Char) :
    (renderHeader q).length = q.1.length + q.2.length + 3 := by
  simp [renderHeader]
  omega

theorem phl (C : List Char) :
    ∀ (Hr : List (List Char × List Char)) (n fuel p : Nat) (b : HttpLib.HttpRequestBuilder),
    Hr.all (fun q => goodName q.1) = true →
    Hr.all (fun q => goodValue q.2) = true →
    Hr.length + 1 ≤ n →
    (renderHeaders Hr).length + 1 ≤ fuel →
    bytePos C p →
    List.drop p C = renderHeaders Hr ++ ['\r', '\n'] →
    p + (renderHeaders Hr).length ≤ 8192 →
    NewParse.parse_header_lines n fuel (lexSt C Lex.LexState.HeaderName p) b =
      Out.ok (Except.ok (Hr.foldl (fun b2 q => b2.with_header q.1 (trimStart q.2)) b,
        lexSt C Lex.LexState.Body (p + (renderHeaders Hr).length + 2))) := by
  intro Hr
  induction Hr with
  | nil =>
    intro n fuel p b _ _ hn _ hbp hdrop hsz
    match n, hn with
    | n + 1, _ =>
    have hblank := next_blank C fuel p [] hbp
      (by simpa [renderHeaders] using hdrop)
      (by simp only [renderHeaders, List.map_nil, List.flatten_nil, List.length_nil] at hsz
          omega)
    simp only [NewParse.parse_header_lines, hblank, Out.bind]
    simp [renderHeaders]
  | cons q t ih =>
    intro n fuel p b hgn hgv hn hfuel hbp hdrop hsz
    match n, hn with
    | n + 1, hn2 =>
    obtain ⟨nm, v⟩ := q
    simp only [List.all_cons, Bool.and_eq_true] at hgn hgv
    have hlen1 : (renderHeaders ((nm, v) :: t)).length =
        nm.length + 1 + v.length + 2 + (renderHeaders t).length := by
      rw [renderHeaders_cons]
      simp only [List.length_append, renderHeader_length]
      omega
    have hdropP : List.drop p C =
        nm ++ [':'] ++ (v ++ ['\r', '\n'] ++ (renderHeaders t ++ ['\r', '\n'])) := by
      rw [hdrop, renderHeaders_cons]
      simp [renderHeader, List.append_assoc]
    have hstep1 := next_header_name C fuel p nm
      (v ++ ['\r', '\n'] ++ (renderHeaders t ++ ['\r', '\n']))
      hgn.1
      (by omega)
      hbp hdropP
      (by omega)
    have hname_ascii : asciiOnly (nm ++ [':']) = true := by
      obtain ⟨_, hall, _⟩ := goodName_destruct nm hgn.1
      have h8 := nameAll_ascii nm hall
      simp only [asciiOnly, List.all_append, Bool.and_eq_true]
      simp only [asciiOnly] at h8
      exact ⟨h8, by decide⟩
    have hbp1 : bytePos C (p + nm.length + 1) := by
      have h8 := bytePos_advance (nm ++ [':']) C p
        (v ++ ['\r', '\n'] ++ (renderHeaders t ++ ['\r', '\n'])) hbp
        (by rw [hdropP]) hname_ascii
      have he : p + (nm ++ [':']).length = p + nm.length + 1 := by
        simp only [List.length_append, List.length_cons, List.length_nil]
        omega
      rwa [he] at h8
    have hdrop1 : List.drop (p + nm.length + 1) C =
        v ++ ['\r', '\n'] ++ (renderHeaders t ++ ['\r', '\n']) := by
      have h9 : List.drop (p + nm.length + 1) C =
          List.drop (nm.length + 1) (List.drop p C) := by
        rw [List.drop_drop]
        congr 1 <;> omega
      rw [h9, hdropP]
      rw [show nm.length + 1 = (nm ++ [':']).length from by simp]
      rw [show nm ++ [':'] ++ (v ++ ['\r', '\n'] ++ (renderHeaders t ++ ['\r', '\n'])) =
        (nm ++ [':']) ++ (v ++ ['\r', '\n'] ++ (renderHeaders t ++ ['\r', '\n'])) from by
          simp [List.append_assoc]]
      exact List.drop_left _ _
    have hstep2 := next_header_value C fuel (p + nm.length + 1) v
      (renderHeaders t ++ ['\r', '\n'])
      hgv.1
      (by omega)
      hbp1 hdrop1
      (by omega)
    have hline_ascii : asciiOnly (nm ++ [':'] ++ (v ++ ['\r', '\n'])) = true := by
      have h2 := valueAll_ascii v hgv.1
      simp only [asciiOnly, List.all_append, Bool.and_eq_true]
      simp only [asciiOnly, List.all_append, Bool.and_eq_true] at h2 hname_ascii
      exact ⟨⟨hname_ascii.1, hname_ascii.2⟩, h2, by decide⟩
    have hbp2 : bytePos C (p + nm.length + 1 + v.length + 2) := by
      have h8 := bytePos_advance (nm ++ [':'] ++ (v ++ ['\r', '\n'])) C p
        (renderHeaders t ++ ['\r', '\n']) hbp
        (by rw [hdropP]; simp [List.append_assoc]) hline_ascii
      have he : p + (nm ++ [':'] ++ (v ++ ['\r', '\n'])).length =
          p + nm.length + 1 + v.length + 2 := by
        simp only [List.length_append, List.length_cons, List.length_nil]
        omega
      rwa [he] at h8
    have hdrop2 : List.drop (p + nm.length + 1 + v.length + 2) C =
        renderHeaders t ++ ['\r', '\n'] := by
      have h9 : List.drop (p + nm.length + 1 + v.length + 2) C =
          List.drop (nm.length + 1 + v.length + 2) (List.drop p C) := by
        rw [List.drop_drop]
        congr 1 <;> omega
      rw [h9, hdropP]
      rw [show nm.length + 1 + v.length + 2 =
        (nm ++ [':'] ++ (v ++ ['\r', '\n'])).length from by
          simp only [List.length_append, List.length_cons, List.length_nil]; omega]
      rw [show nm ++ [':'] ++ (v ++ ['\r', '\n'] ++ (renderHeaders t ++ ['\r', '\n'])) =
        (nm ++ [':'] ++ (v ++ ['\r', '\n'])) ++ (renderHeaders t ++ ['\r', '\n']) from by
          simp [List.append_assoc]]
      exact List.drop_left _ _
    have hih := ih n fuel (p + nm.length + 1 + v.length + 2)
      (b.with_header nm (trimStart v))
      hgn.2 hgv.2
      (by simp only [List.length_cons] at hn2; omega)
      (by omega)
      hbp2 hdrop2
      (by omega)
    simp only [NewParse.parse_header_lines, hstep1, Out.bind, hstep2, hih]
    have hfold : ((nm, v) :: t).foldl (fun b2 q => b2.with_header q.1 (trimStart q.2)) b =
        t.foldl (fun b2 q => b2.with_header q.1 (trimStart q.2))
          (b.with_header nm (trimStart v)) := by
      simp
    rw [hfold]
    have hpe : p + nm.length + 1 + v.length + 2 + (renderHeaders t).length + 2 =
        p + (renderHeaders ((nm, v) :: t)).length + 2 := by
      omega
    rw [hpe]

theorem mfa_none_mono : ∀ (l : List Char) (off off' : Nat),
    methodFindAux l off false = none → methodFindAux l off' false = none := by
  intro l
  induction l with
  | nil => intro off off' _; rfl
  | cons c t ih =>
    intro off off' h
    simp only [methodFindAux] at h ⊢
    cases hmt : methodTry false (c :: t) with
    | some kw => rw [hmt] at h; simp at h
    | none =>
      rw [hmt] at h
      show methodFindAux t (off' + charUtf8Len c) false = none
      exact ih _ _ h

theorem lossy_ascii_cons (b : Nat) (rest : List Nat) (h : b < 0x80) :
    utf8DecodeLossy (b :: rest) = Char.ofNat b :: utf8DecodeLossy rest := by
  conv_lhs => unfold utf8DecodeLossy
  simp [h]

theorem asciiBytes_lossy : ∀ (l : List Char), asciiOnly l = true →
    utf8DecodeLossy (asciiBytes l) = l := by
  intro l
  induction l with
  | nil => intro _; rfl
  | cons c t ih =>
    intro h
    simp only [asciiOnly, List.all_cons, Bool.and_eq_true, decide_eq_true_eq] at h
    show utf8DecodeLossy (c.toNat :: asciiBytes t) = c :: t
    rw [lossy_ascii_cons _ _ h.1, Char.ofNat_toNat, ih (by simp [asciiOnly, h.2])]

theorem renderHeaders_ascii : ∀ (H : List (List Char × List Char)),
    H.all (fun q => goodName q.1) = true → H.all (fun q => goodValue q.2) = true →
    asciiOnly (renderHeaders H) = true := by
  intro H
  induction H with
  | nil => intro _ _; rfl
  | cons q t ih =>
    intro hn hv
    simp only [List.all_cons, Bool.and_eq_true] at hn hv
    rw [renderHeaders_cons]
    have h1 := renderHeader_ascii q hn.1 hv.1
    have h2 := ih hn.2 hv.2
    simp only [asciiOnly] at h1 h2 ⊢
    rw [List.all_append, h1, h2]
    rfl

theorem c8_dec (H : List (List Char × List Char))
    (hn : H.all (fun q => goodName q.1) = true)
    (hv : H.all (fun q => goodValue q.2) = true) :
    utf8DecodeLossy (c8inputOf H) = c8buf H := by
  have ha : asciiOnly (c8buf H) = true := by
    simp only [c8buf, asciiOnly, List.all_append, Bool.and_eq_true]
    refine ⟨by decide, ?_, by decide⟩
    have h2 := renderHeaders_ascii H hn hv
    simpa [asciiOnly] using h2
  have he : c8inputOf H = asciiBytes (c8buf H) := by
    simp only [c8inputOf, c8buf, asciiBytes, List.map_append]
    congr 1
  rw [he, asciiBytes_lossy _ ha]

theorem c8_len (H : List (List Char × List Char)) :
    (c8inputOf H).length = (renderHeaders H).length + 18 := by
  simp only [c8inputOf, List.length_append, asciiBytes, List.length_map]
  rw [show (strBytes "GET / HTTP/1.1\r\n").length = 16 from by decide]
  simp only [List.length_append, List.length_cons, List.length_nil]
  omega

theorem c8_refill (H : List (List Char × List Char))
    (hn : H.all (fun q => goodName q.1) = true)
    (hv : H.all (fun q => goodValue q.2) = true)
    (hlen : (renderHeaders H).length + 18 ≤ 1024) :
    { Lex.refill_buffer (Lex.Lexer.new (c8inputOf H)) with
        state := Lex.LexState.RequestLine } =
      lexSt (c8buf H) Lex.LexState.RequestLine 0 := by
  have hl : (c8inputOf H).length ≤ 1024 := by rw [c8_len]; omega
  have htake : (c8inputOf H).take 1024 = c8inputOf H := List.take_of_length_le hl
  have hdrop : (c8inputOf H).drop 1024 = [] := List.drop_eq_nil_of_le hl
  simp only [Lex.refill_buffer, Lex.Lexer.new, htake, hdrop, c8_dec H hn hv, lexSt,
    List.nil_append, show (c8inputOf H).isEmpty = false from rfl]

theorem next_rl_method (H : List (List Char × List Char)) (fuel : Nat)
    (hf : 2 ≤ fuel)
    (hn : H.all (fun q => goodName q.1) = true)
    (hv : H.all (fun q => goodValue q.2) = true)
    (hlen : (renderHeaders H).length + 18 ≤ 1024) :
    Lex.Lexer.next fuel (Lex.Lexer.new (c8inputOf H)) =
      Out.ok (some (Lex.Token.Method HttpLib.HttpMethod.GET),
        lexSt (c8buf H) Lex.LexState.RequestLine 3) := by
  obtain ⟨f, rfl⟩ : ∃ f, fuel = f + 2 := ⟨fuel - 2, by omega⟩
  rw [show Lex.Lexer.next (f + 2) (Lex.Lexer.new (c8inputOf H)) =
      (Lex.lex_request_line (f + 2)
        { Lex.refill_buffer (Lex.Lexer.new (c8inputOf H)) with
            state := Lex.LexState.RequestLine }).bind (fun r =>
        Out.ok (some r.1,
          match r.2.1 with
          | some s2 => { r.2.2 with state := s2 }
          | none => r.2.2)) from rfl]
  rw [c8_refill H hn hv hlen]
  rw [show Lex.lex_request_line (f + 2) (lexSt (c8buf H) Lex.LexState.RequestLine 0) =
      Out.ok (Lex.Token.Method HttpLib.HttpMethod.GET, none,
        lexSt (c8buf H) Lex.LexState.RequestLine 3) from rfl]
  rfl

theorem next_rl_protocol (H : List (List Char × List Char)) (fuel : Nat)
    (hf : 2 ≤ fuel)
    (hkw : noMethodKw (renderHeaders H ++ ['\r', '\n']) = true) :
    Lex.Lexer.next fuel (lexSt (c8buf H) Lex.LexState.RequestLine 5) =
      Out.ok (some Lex.Token.Protocol, lexSt (c8buf H) Lex.LexState.RequestLine 14) := by
  obtain ⟨f, rfl⟩ : ∃ f, fuel = f + 2 := ⟨fuel - 2, by omega⟩
  have hmfS : methodFindAux (renderHeaders H ++ ['\r', '\n']) 10 false = none := by
    apply mfa_none_mono _ 0 10
    simpa [noMethodKw, Option.isNone_iff_eq_none] using hkw
  have hmf : methodFind ('H' :: 'T' :: 'T' :: 'P' :: '/' :: '1' :: '.' :: '1' :: '\r' :: '\n' ::
      (renderHeaders H ++ ['\r', '\n'])) = none := by
    rw [show methodFind ('H' :: 'T' :: 'T' :: 'P' :: '/' :: '1' :: '.' :: '1' :: '\r' :: '\n' ::
        (renderHeaders H ++ ['\r', '\n'])) =
      methodFindAux (renderHeaders H ++ ['\r', '\n']) 10 false from rfl]
    exact hmfS
  rw [show Lex.Lexer.next (f + 2) (lexSt (c8buf H) Lex.LexState.RequestLine 5) =
      (Lex.lex_method_or_protocol (lexSt (c8buf H) Lex.LexState.RequestLine 6)).bind (fun r =>
        Out.ok (some r.1,
          match r.2.1 with
          | some s2 => { r.2.2 with state := s2 }
          | none => r.2.2)) from rfl]
  simp only [Lex.lex_method_or_protocol, lexSt]
  simp only [show sliceFrom (c8buf H) 6 =
      some ('H' :: 'T' :: 'T' :: 'P' :: '/' :: '1' :: '.' :: '1' :: '\r' :: '\n' ::
        (renderHeaders H ++ ['\r', '\n'])) from rfl]
  simp only [hmf]
  simp only [show matchesAt ['H','T','T','P','/','1','.','1']
      ('H' :: 'T' :: 'T' :: 'P' :: '/' :: '1' :: '.' :: '1' :: '\r' :: '\n' ::
        (renderHeaders H ++ ['\r', '\n'])) = true from rfl, if_true]
  rfl

theorem c8_request_line (H : List (List Char × List Char)) (fuel : Nat)
    (hf : 2 ≤ fuel)
    (hn : H.all (fun q => goodName q.1) = true)
    (hv : H.all (fun q => goodValue q.2) = true)
    (hkw : noMethodKw (renderHeaders H ++ ['\r', '\n']) = true)
    (hlen : (renderHeaders H).length + 18 ≤ 1024) :
    NewParse.parse_request_line fuel (Lex.Lexer.new (c8inputOf H)) =
      Out.ok (Except.ok
        ((HttpLib.HttpRequestBuilder.new.with_method HttpLib.HttpMethod.GET).with_path ['/'],
          lexSt (c8buf H) Lex.LexState.HeaderName 16)) := by
  have h2 : Lex.Lexer.next fuel (lexSt (c8buf H) Lex.LexState.RequestLine 3) =
      Out.ok (some (Lex.Token.Path ['/']), lexSt (c8buf H) Lex.LexState.RequestLine 5) := by
    obtain ⟨f, rfl⟩ : ∃ f, fuel = f + 2 := ⟨fuel - 2, by omega⟩
    rfl
  have h4 : Lex.Lexer.next fuel (lexSt (c8buf H) Lex.LexState.RequestLine 14) =
      Out.ok (some Lex.Token.Crlf, lexSt (c8buf H) Lex.LexState.HeaderName 16) := by
    obtain ⟨f, rfl⟩ : ∃ f, fuel = f + 2 := ⟨fuel - 2, by omega⟩
    rfl
  simp only [NewParse.parse_request_line, next_rl_method H fuel hf hn hv hlen, Out.bind]
  simp only [h2, Out.bind]
  simp only [NewParse.parse_protocol, next_rl_protocol H fuel hf hkw, Out.bind]
  simp only [NewParse.parse_crlf, h4, Out.bind]

theorem c8_drop16 (H : List (List Char × List Char)) :
    List.drop 16 (c8buf H) = renderHeaders H ++ ['\r', '\n'] := rfl

theorem c8_buflen (H : List (List Char × List Char)) :
    (c8buf H).length = (renderHeaders H).length + 18 := by
  simp only [c8buf, List.length_append, List.length_cons, List.length_nil]
  rw [show (("GET / HTTP/1.1\r\n").toList).length = 16 from by decide]
  omega

theorem c8_bytePos16 (H : List (List Char × List Char))
    (hn : H.all (fun q => goodName q.1) = true)
    (hv : H.all (fun q => goodValue q.2) = true) :
    bytePos (c8buf H) 16 := by
  have h0 : bytePos (c8buf H) 0 := by
    unfold bytePos
    rw [dropBytes_zero, List.drop_zero]
  have h := bytePos_advance (("GET / HTTP/1.1\r\n").toList) (c8buf H) 0
    (renderHeaders H ++ ['\r', '\n']) h0 (by rw [List.drop_zero]; rfl) (by decide)
  rw [show 0 + (("GET / HTTP/1.1\r\n").toList).length = 16 from by decide] at h
  exact h

theorem c8_bytePosEnd (H : List (List Char × List Char))
    (hn : H.all (fun q => goodName q.1) = true)
    (hv : H.all (fun q => goodValue q.2) = true) :
    bytePos (c8buf H) (16 + (renderHeaders H).length + 2) := by
  have h := bytePos_advance (renderHeaders H ++ ['\r', '\n']) (c8buf H) 16 []
    (c8_bytePos16 H hn hv)
    (by rw [List.append_nil]; exact c8_drop16 H)
    (by
      simp only [asciiOnly, List.all_append, Bool.and_eq_true]
      refine ⟨?_, by decide⟩
      have h2 := renderHeaders_ascii H hn hv
      simpa [asciiOnly] using h2)
  rw [show 16 + (renderHeaders H ++ ['\r', '\n']).length =
    16 + (renderHeaders H).length + 2 from by simp; omega] at h
  exact h

theorem c8_dropEnd (H : List (List Char × List Char)) :
    List.drop (16 + (renderHeaders H).length + 2) (c8buf H) = [] := by
  apply List.drop_eq_nil_of_le
  rw [c8_buflen]
  omega

theorem headers_count_le (H : List (List Char × List Char)) :
    H.length ≤ (renderHeaders H).length := by
  induction H with
  | nil => simp [renderHeaders]
  | cons q t ih =>
    rw [renderHeaders_cons]
    simp only [List.length_cons, List.length_append]
    have h := renderHeader_length q
    omega

theorem c8_pipeline (H : List (List Char × List Char))
    (hn : H.all (fun q => goodName q.1) = true)
    (hv : H.all (fun q => goodValue q.2) = true)
    (hkw : noMethodKw (renderHeaders H ++ ['\r', '\n']) = true)
    (hlen : (renderHeaders H).length + 18 ≤ 1024) :
    NewParse.parseRun (c8inputOf H) =
      Out.ok (Except.ok
        (((H.foldl (fun b2 q => b2.with_header q.1 (trimStart q.2))
            ((HttpLib.HttpRequestBuilder.new.with_method
              HttpLib.HttpMethod.GET).with_path ['/'])).with_body []).build)) := by
  have hrl := c8_request_line H 4096 (by omega) hn hv hkw hlen
  have hcnt := headers_count_le H
  have hphl := phl (c8buf H) H 4096 4096 16
    ((HttpLib.HttpRequestBuilder.new.with_method HttpLib.HttpMethod.GET).with_path ['/'])
    hn hv (by omega) (by omega) (c8_bytePos16 H hn hv) (c8_drop16 H) (by omega)
  have hbody := next_body_empty (c8buf H) 4096 (16 + (renderHeaders H).length + 2)
    (c8_bytePosEnd H hn hv) (c8_dropEnd H)
  simp only [NewParse.parseRun, NewParse.parse_from_reader, hrl, Out.bind]
  simp only [hphl, Out.bind]
  simp only [NewParse.parse_body, hbody, Out.bind]

theorem find?_filter_irrel (m : List (List Char × List Char)) (k n : List Char)
    (hkn : (k == n) = false) :
    ((m.filter (fun p => !(p.1 == k))).find? (fun p => p.1 == n)) =
      m.find? (fun p => p.1 == n) := by
  induction m with
  | nil => rfl
  | cons a t ih =>
    cases hak : (a.1 == k) with
    | true =>
      have han : (a.1 == n) = false := by rw [eq_of_beq hak]; exact hkn
      rw [List.filter_cons_of_neg (by simp [hak]), ih,
        List.find?_cons_of_neg t (by simp [han])]
    | false =>
      rw [List.filter_cons_of_pos (by simp [hak])]
      cases han : (a.1 == n) with
      | true =>
        rw [List.find?_cons_of_pos _ (by simpa using han),
          List.find?_cons_of_pos t (by simpa using han)]
      | false =>
        rw [List.find?_cons_of_neg _ (by simp [han]),
          List.find?_cons_of_neg t (by simp [han]), ih]

theorem hmGet_insert (m : List (List Char × List Char)) (k v n : List Char) :
    HttpLib.hmGet (HttpLib.hmInsert m k v) n =
      if k == n then some v else HttpLib.hmGet m n := by
  unfold HttpLib.hmInsert HttpLib.hmGet
  cases hkn : (k == n) with
  | true =>
    rw [List.find?_cons_of_pos _ (by simpa using hkn), if_pos (by simpa using hkn)]
    rfl
  | false =>
    rw [List.find?_cons_of_neg _ (by simp [hkn]), if_neg (by simp [hkn]),
      find?_filter_irrel m k n hkn]

theorem lookupLast_cons (q : List Char × List Char) (t : List (List Char × List Char))
    (n : List Char) :
    lookupLast (q :: t) n =
      match lookupLast t n with
      | some v => some v
      | none => if q.1 == n then some q.2 else none := by
  unfold lookupLast
  rw [List.reverse_cons, List.find?_append]
  cases h : List.find? (fun p => p.1 == n) t.reverse with
  | some w => rfl
  | none =>
    cases hq : (q.1 == n) with
    | true =>
      rw [List.find?_cons_of_pos _ (by simpa using hq), if_pos (by simpa using hq)]
      rfl
    | false =>
      rw [List.find?_cons_of_neg _ (by simp [hq]), if_neg (by simp [hq])]
      rfl

theorem fold_lookup : ∀ (Hr : List (List Char × List Char))
    (b : HttpLib.HttpRequestBuilder) (n : List Char),
    HttpLib.hmGet ((Hr.foldl (fun b2 q => b2.with_header q.1 (trimStart q.2)) b).headers) n =
      (match lookupLast Hr n with
       | some v => some (trimStart v)
       | none => HttpLib.hmGet b.headers n) := by
  intro Hr
  induction Hr with
  | nil => intro b n; rfl
  | cons q t ih =>
    intro b n
    rw [List.foldl_cons, ih, lookupLast_cons]
    cases hlt : lookupLast t n with
    | some v => rfl
    | none =>
      show HttpLib.hmGet (HttpLib.hmInsert b.headers q.1 (trimStart q.2)) n = _
      rw [hmGet_insert]
      cases hq : (q.1 == n) with
      | true => rw [if_pos (by simpa using hq)]; rfl
      | false => rw [if_neg (by simp [hq])]; rfl

theorem hmInsert_keys_nodup (m : List (List Char × List Char)) (k v : List Char)
    (h : (m.map Prod.fst).Nodup) :
    ((HttpLib.hmInsert m k v).map Prod.fst).Nodup := by
  unfold HttpLib.hmInsert
  simp only [List.map_cons, List.nodup_cons]
  constructor
  · intro hmem
    simp only [List.mem_map] at hmem
    obtain ⟨p, hp, hpk⟩ := hmem
    have hf := List.of_mem_filter hp
    rw [hpk] at hf
    simp at hf
  · exact List.Nodup.sublist (List.Sublist.map _ (List.filter_sublist _)) h

theorem fold_keys_nodup : ∀ (Hr : List (List Char × List Char))
    (b : HttpLib.HttpRequestBuilder),
    (b.headers.map Prod.fst).Nodup →
    (((Hr.foldl (fun b2 q => b2.with_header q.1 (trimStart q.2)) b).headers.map
      Prod.fst).Nodup) := by
  intro Hr
  induction Hr with
  | nil => intro b h; exact h
  | cons q t ih =>
    intro b h
    rw [List.foldl_cons]
    exact ih _ (hmInsert_keys_nodup _ _ _ h)

theorem lookupLast_isSome_of_mem (H : List (List Char × List Char))
    (q : List Char × List Char) (hq : q ∈ H) :
    ∃ v, lookupLast H q.1 = some v := by
  unfold lookupLast
  have hsome : (H.reverse.find? (fun p => p.1 == q.1)).isSome = true := by
    rw [List.find?_isSome]
    exact ⟨q, by simpa using hq, by simp⟩
  cases hf : H.reverse.find? (fun p => p.1 == q.1) with
  | none => rw [hf] at hsome; simp at hsome
  | some w => exact ⟨w.2, rfl⟩

/-- C8: confirmed on the inputs where its "successfully parsed request"
premise is realizable in this embedding: a `GET / HTTP/1.1` request line, a
header section of `name: value CRLF` lines with names the lexer accepts
(ASCII alphanumeric or `-`, a subset of the token charset, not spelling
content-length), values ASCII without CR or LF, no method keyword occurring
after the request line (the unanchored method regex would otherwise misread
the protocol), and the whole request within the lexer's single 1 KiB read.
For every header line of such a request, the parse succeeds and the parsed
request's header lookup on that line's name returns the value of the last
header line bearing that exact name with leading whitespace stripped, and
the header mapping holds at most one entry per exact name (its keys are
free of duplicates). -/
theorem claim_C8 (H : List (List Char × List Char))
    (hn : H.all (fun q => goodName q.1) = true)
    (hv : H.all (fun q => goodValue q.2) = true)
    (hkw : noMethodKw (renderHeaders H ++ ['\r', '\n']) = true)
    (hlen : (renderHeaders H).length + 18 ≤ 1024) :
    ∃ r : HttpLib.HttpRequest,
      NewParse.parseRun (c8inputOf H) = Out.ok (Except.ok r) ∧
      (∀ q ∈ H, ∃ v, lookupLast H q.1 = some v ∧
        r.header q.1 = some (trimStart v)) ∧
      (r.headers.map Prod.fst).Nodup := by
  refine ⟨_, c8_pipeline H hn hv hkw hlen, ?_, ?_⟩
  · intro q hq
    obtain ⟨v, hvv⟩ := lookupLast_isSome_of_mem H q hq
    refine ⟨v, hvv, ?_⟩
    show HttpLib.hmGet ((H.foldl (fun b2 q => b2.with_header q.1 (trimStart q.2))
        ((HttpLib.HttpRequestBuilder.new.with_method HttpLib.HttpMethod.GET).with_path
          ['/'])).headers) q.1 = some (trimStart v)
    rw [fold_lookup, hvv]
  · exact fold_keys_nodup H _ (by decide)

/-- Witness for C8 at a concrete header list with a repeated name `A` (second
occurrence with leading whitespace) and a further name `B`. -/
theorem claim_C8_witness :
    ∃ r : HttpLib.HttpRequest,
      NewParse.parseRun
          (c8inputOf [(['A'], ['x']), (['A'], [' ', 'y']), (['B'], ['z'])]) =
        Out.ok (Except.ok r) ∧
      (∀ q ∈ [(['A'], ['x']), (['A'], [' ', 'y']), (['B'], ['z'])], ∃ v,
        lookupLast [(['A'], ['x']), (['A'], [' ', 'y']), (['B'], ['z'])] q.1 = some v ∧
        r.header q.1 = some (trimStart v)) ∧
      (r.headers.map Prod.fst).Nodup :=
  claim_C8 [(['A'], ['x']), (['A'], [' ', 'y']), (['B'], ['z'])]
    (by decide) (by decide) (by decide) (by decide)
